import Mathlib

/-!
Verification of the multi-model RAG backend against its specification.

Each component of the backend that the checked claims touch is shallowly
embedded below as executable Lean definitions translated from the Python
source under `backend/app`.  Machine integers are modelled as `Nat`/`Int`
with explicit `% 2^w` where Python itself reduces, floating-point scores
are modelled as exact rationals, and effectful code (database sessions,
vector-store clients, the Celery queue) is modelled by explicit state
passing, with the behaviour of the external service supplied as an
explicit parameter.
-/

/-! # SHA-256 (hashlib.sha256), byte-level
`vector_store.chunk_id_to_vector_id` hashes the decimal representation of
the chunk id with SHA-256.  Messages are lists of bytes (each a `Nat < 256`);
words are `Nat` reduced mod 2^32. -/

namespace SHA256

def w32 (x : Nat) : Nat := x % 4294967296

def wadd (a b : Nat) : Nat := (a + b) % 4294967296

def wnot (x : Nat) : Nat := Nat.xor x 4294967295

def rotr (n x : Nat) : Nat := Nat.lor (x >>> n) (w32 (x <<< (32 - n)))

def ssig0 (x : Nat) : Nat := Nat.xor (rotr 7 x) (Nat.xor (rotr 18 x) (x >>> 3))

def ssig1 (x : Nat) : Nat := Nat.xor (rotr 17 x) (Nat.xor (rotr 19 x) (x >>> 10))

def bsig0 (x : Nat) : Nat := Nat.xor (rotr 2 x) (Nat.xor (rotr 13 x) (rotr 22 x))

def bsig1 (x : Nat) : Nat := Nat.xor (rotr 6 x) (Nat.xor (rotr 11 x) (rotr 25 x))

def ch (e f g : Nat) : Nat := Nat.xor (Nat.land e f) (Nat.land (wnot e) g)

def maj (a b c : Nat) : Nat :=
  Nat.xor (Nat.land a b) (Nat.xor (Nat.land a c) (Nat.land b c))

/-- Round constants of FIPS 180-4 (fractional parts of the cube roots of the
first 64 primes). -/
def kConst : List Nat :=
  [1116352408, 1899447441, 3049323471, 3921009573, 961987163,
   1508970993, 2453635748, 2870763221, 3624381080, 310598401,
   607225278, 1426881987, 1925078388, 2162078206, 2614888103,
   3248222580, 3835390401, 4022224774, 264347078, 604807628,
   770255983, 1249150122, 1555081692, 1996064986, 2554220882,
   2821834349, 2952996808, 3210313671, 3336571891, 3584528711,
   113926993, 338241895, 666307205, 773529912, 1294757372,
   1396182291, 1695183700, 1986661051, 2177026350, 2456956037,
   2730485921, 2820302411, 3259730800, 3345764771, 3516065817,
   3600352804, 4094571909, 275423344, 430227734, 506948616,
   659060556, 883997877, 958139571, 1322822218, 1537002063,
   1747873779, 1955562222, 2024104815, 2227730452, 2361852424,
   2428436474, 2756734187, 3204031479, 3329325298]

/-- Initial hash state (fractional parts of the square roots of the first
8 primes). -/
def hInit : List Nat :=
  [1779033703, 3144134277, 1013904242, 2773480762,
   1359893119, 2600822924, 528734635, 1541459225]

/-- Big-endian bytes of a value, `k` bytes wide. -/
def beBytes : Nat → Nat → List Nat
  | 0, _ => []
  | k + 1, v => (v >>> (8 * k)) % 256 :: beBytes k v

/-- Padding: append 0x80, then zeros up to 56 mod 64, then the 64-bit
big-endian bit length. -/
def pad (msg : List Nat) : List Nat :=
  let l := msg.length
  let zeros := (64 + 55 - l % 64) % 64
  msg ++ 0x80 :: List.replicate zeros 0 ++ beBytes 8 (8 * l)

/-- Split a byte list into 64-byte blocks (fuel-driven; fuel larger than the
list length makes it total). -/
def toBlocks : Nat → List Nat → List (List Nat)
  | _, [] => []
  | 0, _ => []
  | fuel + 1, l => l.take 64 :: toBlocks fuel (l.drop 64)

/-- Combine bytes into big-endian 32-bit words. -/
def beWords : List Nat → List Nat
  | b0 :: b1 :: b2 :: b3 :: rest => (((b0 * 256 + b1) * 256 + b2) * 256 + b3) :: beWords rest
  | _ => []

/-- Extend the 16 message words to the 64-entry schedule. -/
def schedule (w16 : List Nat) : List Nat :=
  (List.range 48).foldl
    (fun w _ =>
      let n := w.length
      w ++ [wadd (wadd (ssig1 (w.get! (n - 2))) (w.get! (n - 7)))
              (wadd (ssig0 (w.get! (n - 15))) (w.get! (n - 16)))])
    w16

/-- One compression round; the state is the eight working variables. -/
def round1 (s : List Nat) (kw : Nat) : List Nat :=
  match s with
  | [a, b, c, d, e, f, g, h] =>
    let t1 := wadd h (wadd (bsig1 e) (wadd (ch e f g) kw))
    let t2 := wadd (bsig0 a) (maj a b c)
    [wadd t1 t2, a, b, c, wadd d t1, e, f, g]
  | other => other

/-- Process one 64-byte block. -/
def compress (hs : List Nat) (block : List Nat) : List Nat :=
  let w := schedule (beWords block)
  let kw := List.zipWith wadd kConst w
  let s := kw.foldl round1 hs
  List.zipWith wadd hs s

/-- SHA-256 digest as 32 bytes. -/
def sha256 (msg : List Nat) : List Nat :=
  let padded := pad msg
  let blocks := toBlocks (padded.length + 1) padded
  (blocks.foldl compress hInit).foldr (fun w acc => beBytes 4 w ++ acc) []

/-- Value of one hex digit of `hexdigest()` (bytes written low-nibble last). -/
def hexOfByte (b : Nat) : List Nat := [b / 16, b % 16]

/-- The digest as the list of hex-digit VALUES of `hexdigest()` (each < 16);
characters are not needed, only the value parsed back by `int(h, 16)`. -/
def sha256hexDigits (msg : List Nat) : List Nat :=
  (sha256 msg).foldr (fun b acc => hexOfByte b ++ acc) []

/-- Evaluation of `int(h, 16)` on a list of hex-digit values. -/
def hexVal (ds : List Nat) : Nat := ds.foldl (fun a d => a * 16 + d) 0

end SHA256

/-! # vector_store.py: deterministic vector ids

Python source (`backend/app/services/vector_store.py`):

    def chunk_id_to_vector_id(chunk_id: int) -> str:
        h = hashlib.sha256(str(chunk_id).encode()).hexdigest()[:16]
        return str(int(h, 16) % (2**63))

`ZillizVectorStore.insert` receives string ids (`str(chunk.id)`) and recomputes
the same value (`int(sid)` then `chunk_id_to_vector_id`); the deletion paths
(`remove_file_from_knowledge_base`, `delete_knowledge_base`) compute
`int(chunk_id_to_vector_id(chunk.id))` for each chunk row of the file / KB. -/

namespace VectorStoreM

/-- Bytes of `str(n).encode()` for a non-negative integer: the ASCII decimal
representation, most significant digit first. -/
def decBytes (n : Nat) : List Nat :=
  if n = 0 then [48] else ((Nat.digits 10 n).reverse).map (fun d => 48 + d)

/-- Model of Python `int(s)` on a byte string: defined when every byte is an
ASCII digit and the string is non-empty. -/
def parseDec (bs : List Nat) : Option Nat :=
  if bs ≠ [] ∧ bs.all (fun b => 48 ≤ b ∧ b ≤ 57) then
    some (bs.foldl (fun a b => a * 10 + (b - 48)) 0)
  else none

/-- Numeric value of `chunk_id_to_vector_id(chunk_id)`:
`int(sha256(str(chunk_id)).hexdigest()[:16], 16) % 2**63`. -/
def chunkIdToVectorIdNat (chunkId : Nat) : Nat :=
  SHA256.hexVal ((SHA256.sha256hexDigits (decBytes chunkId)).take 16) % 2 ^ 63

/-- The function `chunk_id_to_vector_id` itself; the source returns the value
as a decimal string, modelled as its byte list. -/
def chunk_id_to_vector_id (chunkId : Nat) : List Nat :=
  decBytes (chunkIdToVectorIdNat chunkId)

/-- Integer id computed by `ZillizVectorStore.insert` for one string id `sid`
(the `try int(sid) ... except ValueError` branch). -/
def insertVectorId (sid : List Nat) : Nat :=
  match parseDec sid with
  | some cid => chunkIdToVectorIdNat cid
  | none => SHA256.hexVal ((SHA256.sha256hexDigits sid).take 16) % 2 ^ 63

/-- Ids deleted by `remove_file_from_knowledge_base` /
`delete_knowledge_base` for a list of chunk ids:
`int(chunk_id_to_vector_id(c.id))`. -/
def deletionVectorIds (chunkIds : List Nat) : List (Option Nat) :=
  chunkIds.map (fun cid => parseDec (chunk_id_to_vector_id cid))

/-- Ids produced at insertion time by `add_files` for the same chunk ids:
`insert(ids=[str(c.id) ...])`. -/
def insertionVectorIds (chunkIds : List Nat) : List Nat :=
  chunkIds.map (fun cid => insertVectorId (decBytes cid))

end VectorStoreM

/-! # KnowledgeBaseService._chunk_text

Faithful embedding of the sentence-aware chunker
(`backend/app/services/knowledge_base_service.py`, `_chunk_text`).
Python strings are modelled as `List Char` so that every operation reduces in
the kernel; `len(...)` is the list length (Python counts code points). -/

namespace Chunker

/-- Characters removed by Python `str.strip()` for ASCII/CJK input. -/
def isStripChar (c : Char) : Bool :=
  c = ' ' || c = '\t' || c = '\n' || c = '\r' || c = '\x0b' || c = '\x0c'

/-- Python `s.strip()`. -/
def strip (s : List Char) : List Char :=
  ((s.dropWhile isStripChar).reverse.dropWhile isStripChar).reverse

/-- First character class of the sentence regex `[。！？\n]+`. -/
def isSepCJK (c : Char) : Bool := c = '。' || c = '！' || c = '？' || c = '\n'

/-- Second character class of the sentence regex `[.!?\n]+`. -/
def isSepAscii (c : Char) : Bool := c = '.' || c = '!' || c = '?' || c = '\n'

/-- One token of `re.split(r'([。！？\n]+|[.!?\n]+)', text)`: the flag is true
for separator runs.  The regex alternation matches a maximal run of the first
class when the next character is in it, else a maximal run of the second.
Fuel-driven (fuel at least the length makes it total: each step consumes at
least one character). -/
def splitPartsAux : Nat → List Char → List (List Char × Bool)
  | _, [] => []
  | 0, _ => []
  | fuel + 1, c :: rest =>
    if isSepCJK c then
      ((c :: rest).takeWhile isSepCJK, true) :: splitPartsAux fuel ((c :: rest).dropWhile isSepCJK)
    else if isSepAscii c then
      ((c :: rest).takeWhile isSepAscii, true) ::
        splitPartsAux fuel ((c :: rest).dropWhile isSepAscii)
    else
      ((c :: rest).takeWhile (fun x => !(isSepCJK x || isSepAscii x)), false) ::
        splitPartsAux fuel ((c :: rest).dropWhile (fun x => !(isSepCJK x || isSepAscii x)))

def splitParts (s : List Char) : List (List Char × Bool) := splitPartsAux s.length s

/-- The sentence-assembly loop over the regex parts: text parts accumulate
into `current_sentence`; a separator part closes it as
`current_sentence.strip() + part.strip()` when non-blank. -/
def sentenceFold : List (List Char × Bool) → List Char → List (List Char) → List (List Char)
  | [], cur, acc => if strip cur ≠ [] then acc ++ [strip cur] else acc
  | (p, isSep) :: rest, cur, acc =>
    if isSep then
      if strip cur ≠ [] then sentenceFold rest [] (acc ++ [strip cur ++ strip p])
      else sentenceFold rest [] acc
    else sentenceFold rest (cur ++ p) acc

/-- Sentences found by the regex phase, after the `if s.strip()` filter. -/
def regexSentences (text : List Char) : List (List Char) :=
  (sentenceFold (splitParts text) [] []).filter (fun s => strip s ≠ [])

/-- Python `text.split('\n\n')` (non-overlapping, left to right). -/
def splitParas : List Char → List Char → List (List Char)
  | [], cur => [cur]
  | '\n' :: '\n' :: rest, cur => cur :: splitParas rest []
  | c :: rest, cur => splitParas rest (cur ++ [c])

/-- Paragraph-mode sentences: `[p.strip() for p in paragraphs if p.strip()]`. -/
def paraSentences (text : List Char) : List (List Char) :=
  ((splitParas text []).map strip).filter (fun p => p ≠ [])

/-- Fixed-size sliding-window fallback.  The source advances
`start = start + chunk_size - overlap`; the loop terminates only when
`overlap < chunk_size` (otherwise the Python loop never returns), so the
embedding is driven by fuel that covers every terminating run. -/
def windowChunks (cs ov : Nat) : Nat → List Char → Nat → List (List Char)
  | 0, _, _ => []
  | fuel + 1, text, start =>
    if start < text.length then
      (text.drop start).take cs ::
        (let nxt := start + cs - ov
         if nxt ≥ text.length then [] else windowChunks cs ov fuel text nxt)
    else []

/-- Separator class of the sub-sentence split `re.split(r'[，；,;]+', s)`. -/
def isComma (c : Char) : Bool := c = '，' || c = '；' || c = ',' || c = ';'

def splitCommasAux : List Char → List Char → List (List Char)
  | [], cur => [cur]
  | c :: rest, cur =>
    if isComma c then cur :: splitCommasAux rest [] else splitCommasAux rest (cur ++ [c])

/-- `[s.strip() for s in re.split(r'[，；,;]+', sentence) if s.strip()]`
(splitting on single separators then dropping blanks equals the run-collapsed
regex split followed by the same filter). -/
def splitSubs (sentence : List Char) : List (List Char) :=
  ((splitCommasAux sentence []).map strip).filter (fun s => s ≠ [])

/-- Joining with single spaces: `' '.join(chunk)`. -/
def joinSp : List (List Char) → List Char
  | [] => []
  | [s] => s
  | s :: rest => s ++ ' ' :: joinSp rest

/-- Overlap extraction: walk the closed chunk backwards, taking sentences
while `overlap_length + len(sent) <= overlap`, counting `len(sent) + 1` each.
The argument is the reversed chunk; the result keeps the original order. -/
def takeOvAux (ov : Nat) : List (List Char) → Nat → List (List Char) × Nat
  | [], ol => ([], ol)
  | s :: rest, ol =>
    if ol + s.length ≤ ov then
      let r := takeOvAux ov rest (ol + s.length + 1)
      (r.1 ++ [s], r.2)
    else ([], ol)

def takeOverlap (cur : List (List Char)) (ov : Nat) : List (List Char) × Nat :=
  takeOvAux ov cur.reverse 0

/-- Loop state: emitted chunks, the open chunk, and its tracked length
(`chunks`, `current_chunk`, `current_length`). -/
structure CState where
  chunks : List (List Char)
  cur : List (List Char)
  curLen : Nat

/-- The inner loop over the comma-split pieces of an over-long sentence. -/
def subLoop (m : Nat) : List (List Char) → CState → CState
  | [], st => st
  | sub :: rest, st =>
    let sl := sub.length
    if st.curLen + sl ≤ m then
      subLoop m rest ⟨st.chunks, st.cur ++ [sub], st.curLen + sl + 1⟩
    else
      let chunks1 := if st.cur ≠ [] then st.chunks ++ [joinSp st.cur] else st.chunks
      if sl > m then subLoop m rest ⟨chunks1 ++ [sub], [], 0⟩
      else subLoop m rest ⟨chunks1, [sub], sl⟩

/-- The main accumulation loop over the sentences. -/
def mainLoop (cs m ov : Nat) : List (List Char) → CState → CState
  | [], st => st
  | sentence :: rest, st =>
    let sl := sentence.length
    if sl > m then
      let st1 : CState :=
        if st.cur ≠ [] then ⟨st.chunks ++ [joinSp st.cur], [], 0⟩ else st
      mainLoop cs m ov rest (subLoop m (splitSubs sentence) st1)
    else
      let sep := if st.cur ≠ [] then 1 else 0
      let newLen := st.curLen + sl + sep
      if newLen ≤ cs then
        mainLoop cs m ov rest ⟨st.chunks, st.cur ++ [sentence], newLen⟩
      else if newLen ≤ m then
        mainLoop cs m ov rest ⟨st.chunks, st.cur ++ [sentence], newLen⟩
      else
        let r := if st.cur ≠ [] ∧ st.cur.length > 1 then takeOverlap st.cur ov else ([], 0)
        let chunks1 := if st.cur ≠ [] then st.chunks ++ [joinSp st.cur] else st.chunks
        mainLoop cs m ov rest ⟨chunks1, r.1 ++ [sentence], r.2 + sl + r.1.length⟩

/-- Flush of the trailing open chunk. -/
def finish (st : CState) : List (List Char) :=
  if st.cur ≠ [] then st.chunks ++ [joinSp st.cur] else st.chunks

/-- The sentence list the accumulation loop actually runs on (empty when the
function returns early through the sliding-window fallback). -/
def effSentences (text : List Char) : List (List Char) :=
  if regexSentences text ≠ [] then regexSentences text
  else if (splitParas text []).length = 1 then []
  else paraSentences text

/-- `_chunk_text` with the computed `max_chunk_size` as an explicit `m`. -/
def chunk_text (text : List Char) (cs ov m : Nat) : List (List Char) :=
  if text = [] ∨ cs = 0 then []
  else if regexSentences text ≠ [] then
    finish (mainLoop cs m ov (regexSentences text) ⟨[], [], 0⟩)
  else if (splitParas text []).length = 1 then
    if ov < cs then windowChunks cs ov (text.length + 1) text 0 else []
  else if paraSentences text = [] then []
  else finish (mainLoop cs m ov (paraSentences text) ⟨[], [], 0⟩)

/-- Python `int(q)` for a rational (truncation toward zero), clamped to `Nat`
as chunk sizes are non-negative. -/
def pyIntTrunc (q : ℚ) : Nat := q.num.toNat / q.den

/-- `max_chunk_size = int(chunk_size * max_expand_ratio)`. -/
def maxChunkSize (cs : Nat) (r : ℚ) : Nat := pyIntTrunc ((cs : ℚ) * r)

/-- `_chunk_text(text, chunk_size, overlap, max_expand_ratio)`. -/
def chunkTextR (text : List Char) (cs ov : Nat) (r : ℚ) : List (List Char) :=
  chunk_text text cs ov (maxChunkSize cs r)

/-- The exception clause of the claim: a chunk that is a single sub-sentence
(from the comma split of an over-long sentence of the text) whose own length
exceeds the ceiling. -/
def isOverlongSub (text : List Char) (m : Nat) (c : List Char) : Prop :=
  ∃ s ∈ effSentences text, m < s.length ∧ c ∈ splitSubs s ∧ m < c.length

instance (text : List Char) (m : Nat) (c : List Char) :
    Decidable (isOverlongSub text m c) := by
  unfold isOverlongSub; infer_instance

end Chunker

/-! # Character-list utilities shared by the embeddings -/

namespace StrM

/-- Python `a.startswith(b)` (is `a` a leading piece of the second list). -/
def isPrefixB : List Char → List Char → Bool
  | [], _ => true
  | _ :: _, [] => false
  | a :: as, b :: bs => a = b && isPrefixB as bs

/-- Python `needle in hay` on character lists. -/
def isInfixB (needle : List Char) : List Char → Bool
  | [] => needle.isEmpty
  | c :: rest => isPrefixB needle (c :: rest) || isInfixB needle rest

end StrM

/-! # ChatService._rag_context, lines 194-253

The retrieval tail of `_rag_context` (`backend/app/services/chat_service.py`):
the empty-retrieval fallback, RRF-ranked candidate selection, reranking, and
the confidence computation.  The dense/lexical loops above it only populate
`chunk_rrf_scores` / `vector_chunk_map`; the accumulated association list is
taken as the input (its order is the dict insertion order), and the reranker
HTTP call and the window-expansion database query are supplied as explicit
parameters.  Float scores are modelled as exact rationals. -/

namespace Retrieval

structure RChunk where
  id : Nat
  fileId : Nat
  chunkIndex : Nat
  content : List Char
deriving DecidableEq, Repr

/-- One element of the reranker response: `{"index": ..., "relevance_score": ...}`. -/
structure RerankItem where
  index : Nat
  relevance : ℚ
deriving DecidableEq, Repr

structure RagResult where
  context : List Char
  confidence : ℚ
  maxConfContext : Option (List Char)
  chunks : List RChunk
deriving DecidableEq, Repr

/-- Python `max(xs, default=0.0)`. -/
def maxQ : List ℚ → ℚ
  | [] => 0
  | x :: rest => rest.foldl max x

/-- Python `max(xs, key=f)`: the first element attaining the maximum. -/
def pyMaxBy (f : α → ℚ) : List α → Option α
  | [] => none
  | x :: rest => some (rest.foldl (fun b y => if f y > f b then y else b) x)

/-- `"\n\n".join(...)`. -/
def joinBlank : List (List Char) → List Char
  | [] => []
  | [s] => s
  | s :: rest => s ++ '\n' :: '\n' :: joinBlank rest

/-- The fallback database query: chunks of the KB with non-empty content,
ordered by ascending chunk id, limited.  The KB's chunk table is passed as a
list; `ORDER BY id` is the stable ascending sort. -/
instance : IsTotal RChunk (fun a b => a.id ≤ b.id) := ⟨fun a b => Nat.le_total a.id b.id⟩

instance : IsTrans RChunk (fun a b => a.id ≤ b.id) := ⟨fun _ _ _ h h2 => Nat.le_trans h h2⟩

def fallbackQuery (kbChunks : List RChunk) (lim : Nat) : List RChunk :=
  (List.insertionSort (fun a b => a.id ≤ b.id)
    (kbChunks.filter (fun c => c.content ≠ []))).take lim

/-- Descending stable sort by the RRF score (`sorted(..., key=score, reverse=True)`;
`List.insertionSort` is stable, matching Python). -/
def sortCandidates (l : List (RChunk × ℚ)) : List (RChunk × ℚ) :=
  List.insertionSort (fun a b => b.2 ≤ a.2) l

/-- Placeholder triples used when rerank is skipped, failed, or returned
nothing: `[(chunk, 0.5, rrf_score) for ... in candidate_chunks[:top_k]]`. -/
def placeholderTriples (candidates : List (RChunk × ℚ)) (topK : Nat) :
    List (RChunk × ℚ × ℚ) :=
  (candidates.take topK).map (fun p => (p.1, 1 / 2, p.2))

/-- The rerank-response loop: keep items whose index is in range, pairing the
candidate with the returned relevance and its RRF score. -/
def rerankTriples (candidates : List (RChunk × ℚ)) (items : List RerankItem) :
    List (RChunk × ℚ × ℚ) :=
  items.foldl
    (fun acc it =>
      match candidates.get? it.index with
      | some p => acc ++ [(p.1, it.relevance, p.2)]
      | none => acc)
    []

/-- The `final_chunks` list: reranker path (`rerankRes = some items`, with
the placeholder fallback when it keeps nothing), reranker exception
(`rerankRes = none`), or the rerank-disabled branch. -/
def finalChunksOf (topK : Nat) (useRerank : Bool) (rerankRes : Option (List RerankItem))
    (candidates : List (RChunk × ℚ)) : List (RChunk × ℚ × ℚ) :=
  if useRerank then
    match rerankRes with
    | some items =>
      let fc := rerankTriples candidates items
      if fc = [] then placeholderTriples candidates topK else fc
    | none => placeholderTriples candidates topK
  else placeholderTriples candidates topK

/-- The `max_conf` computation over the selected triples: the maximum
relevance score, replaced by `min(1, max_rrf * k)` when it is 0.0 and the top
RRF score is positive. -/
def confidenceOf (k : ℚ) (selected : List (RChunk × ℚ × ℚ)) : ℚ :=
  let maxConf0 := maxQ (selected.map (fun t => t.2.1))
  if maxConf0 = 0 then
    let maxRrf := maxQ (selected.map (fun t => t.2.2))
    if maxRrf > 0 then min 1 (maxRrf * k) else maxConf0
  else maxConf0

/-- Lines 194-253 of `_rag_context`.  `rerankRes = none` models the reranker
raising (the `except` branch); `useRerank = false` is the KB toggle branch.
`expandFn` stands for `_expand_chunks_with_window`, applied when the
configured window is positive. -/
def ragContextCore (topK : Nat) (k : ℚ) (useRerank : Bool)
    (rerankRes : Option (List RerankItem)) (rrfScores : List (RChunk × ℚ))
    (kbChunks : List RChunk) (window : Nat)
    (expandFn : List RChunk → List RChunk) : RagResult :=
  if rrfScores = [] then
    let allChunks := fallbackQuery kbChunks (topK * 2)
    if allChunks ≠ [] then
      { context := (joinBlank ((allChunks.filter (fun c => c.content ≠ [])).map
          (fun c => c.content))).take 8000
        confidence := 1 / 2
        maxConfContext := (allChunks.head?).map (fun c => c.content)
        chunks := allChunks }
    else ⟨[], 0, none, []⟩
  else
    let candidates := (sortCandidates rrfScores).take (topK * 2)
    if candidates = [] then ⟨[], 0, none, []⟩
    else
      let selected := (finalChunksOf topK useRerank rerankRes candidates).take topK
      if selected = [] then ⟨[], 0, none, []⟩
      else
        let chunkList := selected.map (fun t => t.1)
        let chunksForContext := if window > 0 then expandFn chunkList else chunkList
        let context := (joinBlank ((chunksForContext.filter
          (fun c => c.content ≠ [])).map (fun c => c.content))).take 8000
        let mcc := pyMaxBy (fun t => t.2.1) selected
        { context := context
          confidence := confidenceOf k selected
          maxConfContext := mcc.map (fun t => t.1.content)
          chunks := chunkList }

end Retrieval

/-! # Chat orchestration: context assembly and the low-confidence warning

`_chat_after_user_message` (lines 556-617) and the matching section of
`chat_stream` (lines 787-841) of `backend/app/services/chat_service.py`.
The retrieval results and the history context are parameters; the assembly
logic — including where the low-confidence warning is added — is translated
directly.  The `f"{conf:.2f}"` decimal rendering of the float is supplied as
a parameter (`fmtConf`). -/

namespace ChatPrompt

open Retrieval

/-- Result of the context-assembly phase: the composed system context, the
`low_confidence_warning` variable ( `[]` when never set), and the final
`rag_context` / `rag_confidence`. -/
structure PromptParts where
  fullContext : List Char
  warning : List Char
  ragContext : List Char
  ragConfidence : ℚ
deriving DecidableEq, Repr

def warnHeadChat : List Char :=
  "[系统提示：当前内部知识库检索结果的置信度为 ".data

def warnTailChat : List Char :=
  "。请明确告知用户「当前内部知识库置信度比较低，将使用AI自身知识解答问题」，然后结合检索到的上下文（如有）和AI自身知识回答问题。]".data

/-- The `f"...置信度为 {conf:.2f}，低于阈值 {threshold}..."` warning string. -/
def lowConfWarning (fmtConf fmtThreshold : List Char) : List Char :=
  warnHeadChat ++ fmtConf ++ "，低于阈值 ".data ++ fmtThreshold ++ warnTailChat

def noResultMsgChat : List Char :=
  "[系统提示：未在所选知识库中检索到与用户问题相关的内容，请明确告知用户「未在知识库中找到相关内容」，并建议用户检查知识库是否已添加文档并完成切分。]".data

def noResultMsgStream : List Char :=
  "[系统提示：未在所选知识库中检索到与用户问题相关的内容，请明确告知用户「未在知识库中找到相关内容」。]".data

def headerPlain : List Char := "【知识库上下文】\n".data

def headerLowConf : List Char := "【知识库上下文（置信度较低，请结合AI自身知识）】\n".data

def headerHistory : List Char := "【对话历史】\n".data

/-- Shared assembly tail (identical in both functions): the KB-context and
history sections of `full_context`. -/
def assembleFullContext (ragContext warning : List Char) (ragConfidence threshold : ℚ)
    (history : List Char) : List Char :=
  (if ragContext ≠ [] then
    (if warning ≠ [] ∧ ragConfidence < threshold then
      headerLowConf ++ ragContext ++ "\n\n".data
    else headerPlain ++ ragContext ++ "\n\n".data)
  else []) ++
  (if history ≠ [] then headerHistory ++ history ++ "\n\n".data else [])

/-- Context assembly of `_chat_after_user_message`, KB-scoped branch
(`knowledge_base_id` set).  `ragKb` is the `_rag_context` result and
`kbChunks` the KB's chunk table read by the secondary fallback query.  No
low-confidence warning is built on this branch. -/
def chatAssemblyKb (ragKb : RagResult) (kbChunks : List RChunk) (threshold : ℚ)
    (history : List Char) : PromptParts :=
  let rag0 := ragKb.context
  let fb := fallbackQuery kbChunks 20
  let withFb :=
    if Chunker.strip rag0 = [] ∧ fb ≠ [] then
      ((joinBlank ((fb.filter (fun c => c.content ≠ [])).map (fun c => c.content))).take 8000,
        (1 : ℚ) / 2)
    else (rag0, ragKb.confidence)
  let rag1 := if Chunker.strip withFb.1 = [] then noResultMsgChat else withFb.1
  { fullContext := assembleFullContext rag1 [] withFb.2 threshold history
    warning := []
    ragContext := rag1
    ragConfidence := withFb.2 }

/-- Context assembly of `_chat_after_user_message`, all-KBs branch
(no `knowledge_base_id`).  `ragAll` is the `_rag_context_all_kbs` result
(`none` models the caught exception); the warning is prepended when the
context is non-empty and the confidence is below the threshold. -/
def chatAssemblyAll (ragAll : Option RagResult) (threshold : ℚ)
    (fmtConf fmtThreshold : List Char) (history : List Char) : PromptParts :=
  let r := match ragAll with
    | some r => (r.context, r.confidence)
    | none => (([] : List Char), (0 : ℚ))
  if r.1 ≠ [] ∧ r.2 < threshold then
    let w := lowConfWarning fmtConf fmtThreshold
    let rag1 := w ++ "\n\n".data ++ r.1
    { fullContext := assembleFullContext rag1 w r.2 threshold history
      warning := w
      ragContext := rag1
      ragConfidence := r.2 }
  else
    { fullContext := assembleFullContext r.1 [] r.2 threshold history
      warning := []
      ragContext := r.1
      ragConfidence := r.2 }

/-- Context assembly of `chat_stream`, KB-scoped branch (same shape as the
chat one; only the no-result message text differs). -/
def streamAssemblyKb (ragKb : RagResult) (kbChunks : List RChunk) (threshold : ℚ)
    (history : List Char) : PromptParts :=
  let rag0 := ragKb.context
  let fb := fallbackQuery kbChunks 20
  let withFb :=
    if Chunker.strip rag0 = [] ∧ fb ≠ [] then
      ((joinBlank ((fb.filter (fun c => c.content ≠ [])).map (fun c => c.content))).take 8000,
        (1 : ℚ) / 2)
    else (rag0, ragKb.confidence)
  let rag1 := if Chunker.strip withFb.1 = [] then noResultMsgStream else withFb.1
  { fullContext := assembleFullContext rag1 [] withFb.2 threshold history
    warning := []
    ragContext := rag1
    ragConfidence := withFb.2 }

/-- Context assembly of `chat_stream`, all-KBs branch (identical logic to
the chat one). -/
def streamAssemblyAll (ragAll : Option RagResult) (threshold : ℚ)
    (fmtConf fmtThreshold : List Char) (history : List Char) : PromptParts :=
  chatAssemblyAll ragAll threshold fmtConf fmtThreshold history

end ChatPrompt

/-! # KnowledgeBaseService.add_files / add_files_stream

Batch ingestion (`backend/app/services/knowledge_base_service.py`, lines
511-739 and 741-934) for text files (the per-image extra-chunk branch is not
touched by the checked claim and its failures are explicitly non-fatal in the
source).  The relational session is explicit state; the surrounding services
(object store read, text extraction with its OCR fallback, `_chunk_text`, the
embedding provider, the vector-store insert) are supplied per file id through
an environment.  The sync variant's single `try` around the whole loop turns
any vectorisation error into `ValueError` with a full rollback; the stream
variant catches it per file. -/

namespace Ingestion

/-- Behaviour of the external world for one file id. -/
structure FileEnv where
  present : Bool
  linked : Bool
  content : Option (List Char)
  contentReason : List Char
  text : List Char
  embedOutcome : Option Nat
  insertOk : Bool
deriving Repr

/-- The relational rows touched by ingestion (session state; `commit` returns
it, an aborting exception discards it). -/
structure DbState where
  links : List Nat
  chunkRows : List (Nat × List Char)
  fileCounts : List (Nat × Nat)
  kbChunkCount : Nat
  kbFileCount : Nat
deriving DecidableEq, Repr

def getCount (fc : List (Nat × Nat)) (fid : Nat) : Nat :=
  ((fc.find? (fun p => p.1 = fid)).map (fun p => p.2)).getD 0

def setCount (fc : List (Nat × Nat)) (fid n : Nat) : List (Nat × Nat) :=
  (fc.filter (fun p => p.1 ≠ fid)) ++ [(fid, n)]

def reasonEmptyText : List Char := "提取文本为空".data

def reasonNoChunks : List Char := "切分后无文本块".data

def reasonVectorize : List Char := "向量化失败".data

def reasonAlreadyIn : List Char := "已在知识库中".data

/-- Synchronous `add_files` per-file body plus batch loop.  Inside the single
`try`, a vectorisation failure (embedding exception, count mismatch, or
vector-store insert error) raises `ValueError`, which the enclosing handler
turns into a rollback of the whole batch. -/
def addFilesGo (chunkFn : List Char → List (List Char)) (env : Nat → FileEnv) :
    List Nat → DbState → List (Nat × List Char) →
    Except (List Char) (DbState × List (Nat × List Char))
  | [], st, skipped =>
    .ok ({ st with kbFileCount := st.links.length }, skipped)
  | fid :: rest, st, skipped =>
    let e := env fid
    if ¬e.present then addFilesGo chunkFn env rest st skipped
    else if e.linked then addFilesGo chunkFn env rest st skipped
    else
      let st1 : DbState := { st with links := st.links ++ [fid] }
      match e.content with
      | none => addFilesGo chunkFn env rest st (skipped ++ [(fid, e.contentReason)])
      | some _ =>
        if Chunker.strip e.text = [] then
          addFilesGo chunkFn env rest st (skipped ++ [(fid, reasonEmptyText)])
        else
          let chunks := chunkFn e.text
          if chunks = [] then
            addFilesGo chunkFn env rest st (skipped ++ [(fid, reasonNoChunks)])
          else
            let st2 : DbState :=
              { st1 with chunkRows := st1.chunkRows ++ chunks.map (fun c => (fid, c)) }
            match e.embedOutcome with
            | none => .error reasonVectorize
            | some n =>
              if n ≠ chunks.length then .error reasonVectorize
              else if ¬e.insertOk then .error reasonVectorize
              else
                let old := getCount st2.fileCounts fid
                let st3 : DbState :=
                  { st2 with
                    fileCounts := setCount st2.fileCounts fid (old + chunks.length)
                    kbChunkCount := st2.kbChunkCount + chunks.length }
                addFilesGo chunkFn env rest st3 skipped

/-- `add_files(kb, file_ids)`: `.error` is the raised `ValueError` after the
relational rollback — no state survives. -/
def addFiles (chunkFn : List Char → List (List Char)) (env : Nat → FileEnv)
    (fileIds : List Nat) (st0 : DbState) :
    Except (List Char) (DbState × List (Nat × List Char)) :=
  addFilesGo chunkFn env fileIds st0 []

inductive Event
  | fileStart (fid : Nat)
  | fileDone (fid : Nat) (chunkCount : Nat)
  | fileSkip (fid : Nat) (reason : List Char)
  | done (skipped : List (Nat × List Char))
deriving DecidableEq, Repr

/-- Streaming `add_files_stream` loop: vectorisation failures are caught per
file — the KB-file link is deleted (the already-flushed chunk rows are not),
a skip is recorded, and the loop continues. -/
def addFilesStreamGo (chunkFn : List Char → List (List Char)) (env : Nat → FileEnv) :
    List Nat → DbState → List (Nat × List Char) → List Event →
    List Event × DbState
  | [], st, skipped, evs =>
    let stF : DbState := { st with kbFileCount := st.links.length }
    (evs ++ [.done skipped], stF)
  | fid :: rest, st, skipped, evs =>
    let e := env fid
    if ¬e.present then
      addFilesStreamGo chunkFn env rest st skipped
        (evs ++ [.fileSkip fid "文件不存在或无权访问".data])
    else
      let evs1 := evs ++ [.fileStart fid]
      if e.linked then
        addFilesStreamGo chunkFn env rest st (skipped ++ [(fid, reasonAlreadyIn)])
          (evs1 ++ [.fileSkip fid reasonAlreadyIn])
      else
        let st1 : DbState := { st with links := st.links ++ [fid] }
        match e.content with
        | none =>
          addFilesStreamGo chunkFn env rest st (skipped ++ [(fid, e.contentReason)])
            (evs1 ++ [.fileSkip fid e.contentReason])
        | some _ =>
          if Chunker.strip e.text = [] then
            addFilesStreamGo chunkFn env rest st (skipped ++ [(fid, reasonEmptyText)])
              (evs1 ++ [.fileSkip fid reasonEmptyText])
          else
            let chunks := chunkFn e.text
            if chunks = [] then
              addFilesStreamGo chunkFn env rest st (skipped ++ [(fid, reasonNoChunks)])
                (evs1 ++ [.fileSkip fid reasonNoChunks])
            else
              let st2 : DbState :=
                { st1 with chunkRows := st1.chunkRows ++ chunks.map (fun c => (fid, c)) }
              let vecOk :=
                match e.embedOutcome with
                | none => false
                | some n => n = chunks.length ∧ e.insertOk
              if vecOk then
                let old := getCount st2.fileCounts fid
                let st3 : DbState :=
                  { st2 with
                    fileCounts := setCount st2.fileCounts fid (old + chunks.length)
                    kbChunkCount := st2.kbChunkCount + chunks.length }
                addFilesStreamGo chunkFn env rest st3 skipped
                  (evs1 ++ [.fileDone fid chunks.length])
              else
                let st3 : DbState := { st2 with links := st.links }
                addFilesStreamGo chunkFn env rest st3 (skipped ++ [(fid, reasonVectorize)])
                  (evs1 ++ [.fileSkip fid reasonVectorize])

def addFilesStream (chunkFn : List Char → List (List Char)) (env : Nat → FileEnv)
    (fileIds : List Nat) (st0 : DbState) : List Event × DbState :=
  addFilesStreamGo chunkFn env fileIds st0 [] []

end Ingestion

/-! # Async submit endpoints (api/v1/knowledge_bases.py)

`_submit_celery_task` bounds `task.delay()` by `CELERY_SUBMIT_TIMEOUT = 10.0`
seconds through `asyncio.wait_for`.  The endpoints differ in their
`except asyncio.TimeoutError` branches: `add_files_to_knowledge_base_async`
degrades to a synchronous `add_files`, while the two reindex endpoints
deliberately return without executing (their comment cites a possible
deadlock with a worker that may still receive the submitted task).  Queue
unavailability (ConnectionError / OperationalError / DNS failure) degrades
all of them to synchronous execution. -/

namespace AsyncApi

def celerySubmitTimeout : ℚ := 10

inductive SubmitResult
  | ok (taskId : List Char)
  | raisedTimeout
  | raised (excTypeName msg : List Char)
deriving DecidableEq, Repr

/-- `asyncio.wait_for(run_in_executor(delay), timeout=CELERY_SUBMIT_TIMEOUT)`:
the call's own outcome is returned only if it completes within the bound. -/
def submitCeleryTask (duration : ℚ) (outcome : SubmitResult) : SubmitResult :=
  if celerySubmitTimeout < duration then .raisedTimeout else outcome

/-- The exception test of the generic handler:
`"ConnectionError" in type(e).__name__ or "OperationalError" in
type(e).__name__ or "Name or service not known" in str(e)`. -/
def isQueueUnavailable (excTypeName msg : List Char) : Bool :=
  StrM.isInfixB "ConnectionError".data excTypeName ||
  StrM.isInfixB "OperationalError".data excTypeName ||
  StrM.isInfixB "Name or service not known".data msg

structure TaskEnqueueResponse where
  taskId : Option (List Char)
  sync : Bool
  result : Option (Nat × Nat)
deriving DecidableEq, Repr

/-- `reindex_file_in_knowledge_base_async` after a successful KB lookup.
`syncCounts` is the `(file_count, chunk_count)` the synchronous reindex
would report.  The boolean records whether the operation was executed
in-process. -/
def reindexFileAsyncEndpoint (sres : SubmitResult) (syncCounts : Nat × Nat) :
    Except (List Char) (TaskEnqueueResponse × Bool) :=
  match sres with
  | .ok tid => .ok (⟨some tid, false, none⟩, false)
  | .raisedTimeout => .ok (⟨none, false, none⟩, false)
  | .raised n m =>
    if isQueueUnavailable n m then .ok (⟨none, true, some syncCounts⟩, true)
    else .error m

/-- `add_files_to_knowledge_base_async` after a successful KB lookup: the
timeout branch also degrades to synchronous execution. -/
def addFilesAsyncEndpoint (sres : SubmitResult) (syncCounts : Nat × Nat) :
    Except (List Char) (TaskEnqueueResponse × Bool) :=
  match sres with
  | .ok tid => .ok (⟨some tid, false, none⟩, false)
  | .raisedTimeout => .ok (⟨none, true, some syncCounts⟩, true)
  | .raised n m =>
    if isQueueUnavailable n m then .ok (⟨none, true, some syncCounts⟩, true)
    else .error m

end AsyncApi

/-! # ChatService.get_conversations: history eviction

Lines 896-914 of `backend/app/services/chat_service.py`: when the user's
conversation count exceeds `CHAT_HISTORY_MAX_COUNT`, the oldest
`total - max` conversations by ascending `updated_at` are deleted.  The
user's conversation table is a list; the `ORDER BY updated_at ASC LIMIT n`
result is the first `n` of the stable ascending sort. -/

namespace Eviction

structure Conv where
  id : Nat
  updatedAt : Nat
deriving DecidableEq, Repr

def sortByUpdated (convs : List Conv) : List Conv :=
  List.insertionSort (fun a b => a.updatedAt ≤ b.updatedAt) convs

/-- The eviction step: `(deleted, remaining)`.  The remaining rows are the
original table minus the deleted rows; as a multiset this is the tail of the
sorted order, which is how it is represented here. -/
def evict (maxCount : Nat) (convs : List Conv) : List Conv × List Conv :=
  if convs.length > maxCount then
    let sorted := sortByUpdated convs
    (sorted.take (convs.length - maxCount), sorted.drop (convs.length - maxCount))
  else ([], convs)

instance : IsTotal Conv (fun a b => a.updatedAt ≤ b.updatedAt) :=
  ⟨fun a b => Nat.le_total a.updatedAt b.updatedAt⟩

instance : IsTrans Conv (fun a b => a.updatedAt ≤ b.updatedAt) :=
  ⟨fun _ _ _ h h2 => Nat.le_trans h h2⟩

end Eviction

/-! # FileService.upload_file / _overwrite_file

Lines 53-150 of `backend/app/services/file_service.py`.  The MD5 content hash
is a parameter (its value never matters, only equality of hashes of equal
byte strings); the security validations are outcomes recorded in the
environment.  NOTE: `_overwrite_file` calls `vs.delete_by_chunk_ids(...)`,
but neither `ZillizVectorStore` nor `QdrantVectorStore` defines any such
method, so the call raises `AttributeError` inside `try/except Exception:
pass` — the vector store is never touched.  The embedding records issued
vector deletions so the theorems can observe that none happens. -/

namespace Upload

inductive FileStatus
  | uploading | processing | completed | failed
deriving DecidableEq, Repr

structure FileRec where
  id : Nat
  userId : Nat
  filename : List Char
  fileType : List Char
  fileSize : Nat
  storagePath : List Char
  md5 : List Char
  chunkCount : Nat
  status : FileStatus
deriving DecidableEq, Repr

structure UploadState where
  files : List FileRec
  chunkRows : List (Nat × Nat)
  kbLinks : List (Nat × Nat)
  objects : List (List Char × List Nat)
  vectorDeletes : List (List Nat)
deriving DecidableEq, Repr

/-- Neither vector-store class defines `delete_by_chunk_ids`; the attribute
lookup in `_overwrite_file` always raises. -/
def vectorClientHasDeleteByChunkIds : Bool := false

/-- Store `content` under `path` (MinIO `put_object` replaces an existing
object at the same key). -/
def putObject (objects : List (List Char × List Nat)) (path : List Char)
    (content : List Nat) : List (List Char × List Nat) :=
  (objects.filter (fun p => p.1 ≠ path)) ++ [(path, content)]

/-- Checks performed before the dedup lookup; the outcomes of the security
services for this upload. -/
structure Validation where
  filenameOk : Bool
  typeAllowed : Bool
  contentOk : Bool
  scanOk : Bool
deriving Repr

def asciiLower (c : Char) : Char :=
  if 'A' ≤ c ∧ c ≤ 'Z' then Char.ofNat (c.toNat + 32) else c

/-- `(on_duplicate or settings.UPLOAD_ON_DUPLICATE or
"use_existing").strip().lower()`, then the whitelist check. -/
def normalizePolicy (onDuplicate : Option (List Char)) (settingDefault : List Char) :
    List Char :=
  let raw := match onDuplicate with
    | some p => if p ≠ [] then p else (if settingDefault ≠ [] then settingDefault else "use_existing".data)
    | none => if settingDefault ≠ [] then settingDefault else "use_existing".data
  let p := (Chunker.strip raw).map asciiLower
  if p = "use_existing".data ∨ p = "overwrite".data then p else "use_existing".data

/-- Decimal rendering used in the storage key `f"{user_id}/{md5}/{name}"`. -/
def decimalStr (n : Nat) : List Char := Nat.toDigits 10 n

/-- `_overwrite_file(existing, content, file, file_type)`. -/
def overwriteFile (existing : FileRec) (content : List Nat)
    (newFilename newFileType : List Char) (st : UploadState) : UploadState :=
  let chunkIds := (st.chunkRows.filter (fun p => p.2 = existing.id)).map (fun p => p.1)
  let st1 : UploadState :=
    { st with
      chunkRows := st.chunkRows.filter (fun p => p.2 ≠ existing.id)
      kbLinks := st.kbLinks.filter (fun p => p.2 ≠ existing.id)
      vectorDeletes :=
        if chunkIds ≠ [] ∧ vectorClientHasDeleteByChunkIds then
          st.vectorDeletes ++ [chunkIds]
        else st.vectorDeletes
      objects := putObject st.objects existing.storagePath content }
  { st1 with
    files := st1.files.map (fun f =>
      if f.id = existing.id then
        { f with
          fileSize := content.length
          chunkCount := 0
          filename := newFilename
          fileType := newFileType
          status := FileStatus.completed }
      else f) }

/-- `upload_file(file, user_id, knowledge_base_id, on_duplicate)`.  `newId`
is the primary key the insert would allocate for a fresh row. -/
def uploadFile (md5 : List Nat → List Char) (maxFileSize : Nat) (v : Validation)
    (content : List Nat) (filename fileType : List Char)
    (userId : Nat) (onDuplicate : Option (List Char)) (settingDefault : List Char)
    (newId : Nat) (st : UploadState) : Except (List Char) (FileRec × UploadState) :=
  if content.length > maxFileSize then .error "文件大小超过限制".data
  else if ¬v.filenameOk then .error "文件名不合法".data
  else if ¬v.typeAllowed then .error "不支持的文件类型".data
  else if ¬v.contentOk then .error "文件内容校验失败".data
  else if ¬v.scanOk then .error "文件未通过安全扫描".data
  else
    let h := md5 content
    let policy := normalizePolicy onDuplicate settingDefault
    match st.files.find? (fun f => f.md5 = h ∧ f.userId = userId) with
    | some existing =>
      if policy = "overwrite".data then
        let st1 := overwriteFile existing content filename fileType st
        match st1.files.find? (fun f => f.id = existing.id) with
        | some updated => .ok (updated, st1)
        | none => .ok (existing, st1)
      else .ok (existing, st)
    | none =>
      let path := decimalStr userId ++ "/".data ++ h ++ "/".data ++ filename
      let rec0 : FileRec :=
        { id := newId, userId := userId, filename := filename,
          fileType := fileType, fileSize := content.length,
          storagePath := path, md5 := h, chunkCount := 0,
          status := FileStatus.completed }
      .ok (rec0, { st with
        objects := putObject st.objects path content
        files := st.files ++ [rec0] })

end Upload

/-! # embedding_service.get_embeddings

Lines 70-93 of `backend/app/services/embedding_service.py`: strip-and-truncate
preprocessing, batching by 20, and the length-restoring postprocessing.  The
provider is a per-batch function parameter. -/

namespace Embeddings

def batchSize : Nat := 20

/-- `t.strip()[:8192] if t and t.strip() else " "`. -/
def preprocess (texts : List (List Char)) : List (List Char) :=
  texts.map (fun t =>
    if Chunker.strip t ≠ [] then (Chunker.strip t).take 8192 else [' '])

/-- The per-text rule in the claim's own words (for comparison with the
source's `preprocess`): each text truncated to its FIRST 8192 characters,
empty or whitespace-only entries replaced by a single space. -/
def preprocessSpec (texts : List (List Char)) : List (List Char) :=
  texts.map (fun t => if Chunker.strip t ≠ [] then t.take 8192 else [' '])

/-- `inputs[i : i + batch_size]` slices (fuel-driven split into blocks). -/
def chunksOf (n : Nat) : Nat → List α → List (List α)
  | _, [] => []
  | 0, _ => []
  | fuel + 1, l => l.take n :: chunksOf n fuel (l.drop n)

def zeroVec (dim : Nat) : List ℚ := List.replicate dim 0

/-- The concatenation `all_embeddings` of the per-batch provider responses. -/
def allEmbOf (providerFn : List (List Char) → List (List ℚ))
    (texts : List (List Char)) : List (List ℚ) :=
  (chunksOf batchSize ((preprocess texts).length + 1) (preprocess texts)).foldl
    (fun acc b => acc ++ providerFn b) []

/-- `get_embeddings(texts)`: `providerFn` is one
`_get_multimodal_embeddings(contents)` call on a batch. -/
def getEmbeddings (providerFn : List (List Char) → List (List ℚ)) (defaultDim : Nat)
    (texts : List (List Char)) : List (List ℚ) :=
  if texts = [] then []
  else
    let allEmb := allEmbOf providerFn texts
    if allEmb = [] then List.replicate texts.length (zeroVec defaultDim)
    else
      let dim := (allEmb.headD []).length
      (List.range texts.length).map (fun i => (allEmb[i]?).getD (zeroVec dim))

end Embeddings

/-! # Theorems -/

/-! ## C1: deterministic vector ids -/

namespace VectorStoreM

theorem foldl_rev_digits (l : List Nat) :
    ∀ acc : Nat, ((l.reverse.map (fun d => 48 + d)).foldl (fun a b => a * 10 + (b - 48)) acc)
      = acc * 10 ^ l.length + Nat.ofDigits 10 l := by
  induction l with
  | nil => intro acc; simp [Nat.ofDigits_nil]
  | cons d l ih =>
    intro acc
    have : (d :: l).reverse.map (fun d => 48 + d)
        = l.reverse.map (fun d => 48 + d) ++ [48 + d] := by simp
    rw [this, List.foldl_append, ih]
    simp only [List.foldl_cons, List.foldl_nil, Nat.ofDigits_cons, List.length_cons]
    have h48 : 48 + d - 48 = d := by omega
    rw [h48]
    ring

theorem parseDec_decBytes (n : Nat) : parseDec (decBytes n) = some n := by
  by_cases h : n = 0
  · subst h; decide
  · have hne : Nat.digits 10 n ≠ [] := Nat.digits_ne_nil_iff_ne_zero.mpr h
    have hbytes : decBytes n = (Nat.digits 10 n).reverse.map (fun d => 48 + d) := by
      simp [decBytes, h]
    have hcond : decBytes n ≠ [] ∧
        ((decBytes n).all fun b => decide (48 ≤ b ∧ b ≤ 57)) = true := by
      constructor
      · rw [hbytes]; simpa using hne
      · rw [hbytes, List.all_eq_true]
        intro b hb
        rcases List.mem_map.mp hb with ⟨d, hd, rfl⟩
        have : d < 10 := Nat.digits_lt_base (by norm_num) (List.mem_reverse.mp hd)
        simp only [decide_eq_true_eq]
        omega
    unfold parseDec
    rw [if_pos hcond, hbytes, foldl_rev_digits]
    simp [Nat.ofDigits_digits]

/-- Claim C1: the numeric vector id of every chunk id n equals
`int(sha256(str(n)).hexdigest()[:16], 16) % 2**63`; the mapping is a pure
function of the chunk id (recomputation, including re-parsing the decimal
string the function returns, reproduces the value); and the deletion paths
(`remove_file_from_knowledge_base`, `delete_knowledge_base`), which compute
`int(chunk_id_to_vector_id(c.id))`, recompute exactly the ids the insertion
path (`ZillizVectorStore.insert` on `str(c.id)`) produced. -/
theorem C1_deterministic_vector_id (chunkIds : List Nat) :
    (∀ n : Nat, chunkIdToVectorIdNat n =
      SHA256.hexVal ((SHA256.sha256hexDigits (decBytes n)).take 16) % 2 ^ 63) ∧
    (∀ n : Nat, parseDec (chunk_id_to_vector_id n) = some (chunkIdToVectorIdNat n)) ∧
    insertionVectorIds chunkIds = chunkIds.map chunkIdToVectorIdNat ∧
    deletionVectorIds chunkIds = chunkIds.map (fun cid => some (chunkIdToVectorIdNat cid)) := by
  refine ⟨fun _ => rfl, fun n => parseDec_decBytes _, ?_, ?_⟩
  · unfold insertionVectorIds
    apply List.map_congr_left
    intro cid _
    simp [insertVectorId, parseDec_decBytes]
  · unfold deletionVectorIds
    apply List.map_congr_left
    intro cid _
    exact parseDec_decBytes _

end VectorStoreM

/-! ## C8: conversation history eviction -/

namespace Eviction

/-- Claim C8: whenever the eviction step runs with the user's conversation
count above CHAT_HISTORY_MAX_COUNT, the oldest conversations by `updated_at`
are deleted until exactly the maximum remain: afterwards the count equals the
maximum, exactly `total - max` rows are deleted, deleted and kept rows
together are the original table, and no deleted conversation has a strictly
newer `updated_at` than any kept one. -/
theorem C8_history_eviction (maxCount : Nat) (convs : List Conv)
    (h : maxCount < convs.length) :
    (evict maxCount convs).2.length = maxCount ∧
    (evict maxCount convs).1.length = convs.length - maxCount ∧
    ((evict maxCount convs).1 ++ (evict maxCount convs).2).Perm convs ∧
    ∀ d ∈ (evict maxCount convs).1, ∀ c ∈ (evict maxCount convs).2,
      d.updatedAt ≤ c.updatedAt := by
  have hperm : (sortByUpdated convs).Perm convs := List.perm_insertionSort _ _
  have hlen : (sortByUpdated convs).length = convs.length := hperm.length_eq
  have hsorted : (sortByUpdated convs).Pairwise (fun a b => a.updatedAt ≤ b.updatedAt) :=
    List.sorted_insertionSort _ _
  unfold evict
  rw [if_pos h]
  refine ⟨?_, ?_, ?_, ?_⟩
  · simp only [List.length_drop, hlen]; omega
  · simp only [List.length_take, hlen]; omega
  · rw [List.take_append_drop]; exact hperm
  · have hpw : ((sortByUpdated convs).take (convs.length - maxCount) ++
        (sortByUpdated convs).drop (convs.length - maxCount)).Pairwise
        (fun a b => a.updatedAt ≤ b.updatedAt) := by
      rw [List.take_append_drop]; exact hsorted
    exact fun d hd c hc => (List.pairwise_append.mp hpw).2.2 d hd c hc

/-- Witness for C8 at a concrete table of three conversations with limit 2:
the two newest (`updated_at` 20 and 30) survive, the oldest (10) is deleted. -/
theorem C8_history_eviction_witness :
    2 < ([⟨1, 30⟩, ⟨2, 10⟩, ⟨3, 20⟩] : List Conv).length ∧
    ((evict 2 [⟨1, 30⟩, ⟨2, 10⟩, ⟨3, 20⟩]).2.length = 2 ∧
     (evict 2 [⟨1, 30⟩, ⟨2, 10⟩, ⟨3, 20⟩]).1.length = 3 - 2 ∧
     ((evict 2 [⟨1, 30⟩, ⟨2, 10⟩, ⟨3, 20⟩]).1 ++
       (evict 2 [⟨1, 30⟩, ⟨2, 10⟩, ⟨3, 20⟩]).2).Perm [⟨1, 30⟩, ⟨2, 10⟩, ⟨3, 20⟩] ∧
     ∀ d ∈ (evict 2 [⟨1, 30⟩, ⟨2, 10⟩, ⟨3, 20⟩]).1,
       ∀ c ∈ (evict 2 [⟨1, 30⟩, ⟨2, 10⟩, ⟨3, 20⟩]).2, d.updatedAt ≤ c.updatedAt) :=
  ⟨by decide, C8_history_eviction 2 [⟨1, 30⟩, ⟨2, 10⟩, ⟨3, 20⟩] (by decide)⟩

end Eviction

/-! ## C10: get_embeddings length restoration -/

namespace Embeddings

theorem chunksOf_flatten (n : Nat) (hn : 0 < n) :
    ∀ (fuel : Nat) (l : List α), l.length ≤ fuel → (chunksOf n fuel l).flatten = l := by
  intro fuel
  induction fuel with
  | zero =>
    intro l hl
    have : l = [] := List.length_eq_zero.mp (Nat.le_zero.mp hl)
    subst this; rfl
  | succ fuel ih =>
    intro l hl
    cases l with
    | nil => rfl
    | cons x xs =>
      have hd : ((x :: xs).drop n).length ≤ fuel := by
        rw [List.length_drop]
        simp only [List.length_cons] at hl ⊢
        omega
      show ((x :: xs).take n :: chunksOf n fuel ((x :: xs).drop n)).flatten = x :: xs
      rw [List.flatten_cons, ih ((x :: xs).drop n) hd, List.take_append_drop]

theorem chunksOf_batch_le (n : Nat) :
    ∀ (fuel : Nat) (l : List α), ∀ b ∈ chunksOf n fuel l, b.length ≤ n := by
  intro fuel
  induction fuel with
  | zero =>
    intro l b hb
    cases l with
    | nil => simp [chunksOf] at hb
    | cons x xs => simp [chunksOf] at hb
  | succ fuel ih =>
    intro l b hb
    cases l with
    | nil => simp [chunksOf] at hb
    | cons x xs =>
      have hb2 : b = (x :: xs).take n ∨ b ∈ chunksOf n fuel ((x :: xs).drop n) := by
        simpa [chunksOf] using hb
      rcases hb2 with rfl | hb2
      · simp [List.length_take]
      · exact ih _ _ hb2

/-- Counterexample to claim C10 as stated: the claim says each text is sent
to the provider truncated to its first 8192 characters, but the source sends
`t.strip()[:8192]` — for the input `" a"` the provider receives `"a"`, which
is not a prefix of the input, so the claimed per-text operation
(`preprocessSpec`, the claim's words) disagrees with the code's `preprocess`. -/
theorem C10_counterexample :
    preprocess [[' ', 'a']] ≠ preprocessSpec [[' ', 'a']] ∧
    preprocess [[' ', 'a']] = [['a']] ∧
    preprocessSpec [[' ', 'a']] = [[' ', 'a']] :=
  ⟨by decide, by decide, by decide⟩

/-- Claim C10 amended: for every non-empty input list, `get_embeddings`
returns a list of exactly the input's length, whatever the provider returns:
inputs are the STRIPPED texts truncated to 8192 chars — not the raw texts'
8192-char prefixes — with blank entries replaced by a single space, sent in
batches of at most 20 whose concatenation is the whole input list, and every
position at or beyond the provider's vector count is filled with a zero
vector. -/
theorem C10_get_embeddings_length (providerFn : List (List Char) → List (List ℚ))
    (defaultDim : Nat) (texts : List (List Char)) (h : texts ≠ []) :
    (getEmbeddings providerFn defaultDim texts).length = texts.length ∧
    preprocess texts = texts.map (fun t =>
      if Chunker.strip t ≠ [] then (Chunker.strip t).take 8192 else [' ']) ∧
    (∀ b ∈ chunksOf batchSize ((preprocess texts).length + 1) (preprocess texts),
      b.length ≤ 20) ∧
    (chunksOf batchSize ((preprocess texts).length + 1) (preprocess texts)).flatten
      = preprocess texts ∧
    (∀ i < texts.length, (allEmbOf providerFn texts).length ≤ i →
      ∃ d, (getEmbeddings providerFn defaultDim texts)[i]? = some (zeroVec d)) := by
  refine ⟨?_, rfl, fun b hb => chunksOf_batch_le _ _ _ b hb,
    chunksOf_flatten _ (by norm_num [batchSize]) _ _ (by omega), ?_⟩
  · unfold getEmbeddings
    rw [if_neg h]
    by_cases he : allEmbOf providerFn texts = []
    · simp [he]
    · simp [he]
  · intro i hi hlen
    unfold getEmbeddings
    rw [if_neg h]
    by_cases he : allEmbOf providerFn texts = []
    · exact ⟨defaultDim, by simp [he, List.getElem?_replicate, hi]⟩
    · refine ⟨((allEmbOf providerFn texts).headD []).length, ?_⟩
      rw [if_neg he, List.getElem?_map, List.getElem?_range hi]
      simp [List.getElem?_eq_none hlen]

/-- Witness for C10 at a two-text input where the provider returns a single
vector: the hypotheses hold at this input and the theorem applies. -/
theorem C10_get_embeddings_length_witness :
    ([['a'], [' ']] : List (List Char)) ≠ [] ∧
    (getEmbeddings (fun _ => [[(1 : ℚ)]]) 4 [['a'], [' ']]).length = 2 :=
  ⟨by decide, by
    have hmain := C10_get_embeddings_length (fun _ => [[(1 : ℚ)]]) 4 [['a'], [' ']] (by decide)
    simpa using hmain.1⟩

end Embeddings

/-! ## C7: async submit endpoints -/

namespace AsyncApi

/-- Counterexample to claim C7 as stated: a submit call exceeding the 10 s
bound raises the timeout, and the async reindex endpoint then returns
`task_id = null`, `sync = false`, no result payload, and does NOT execute the
operation synchronously (second component `false`), contradicting the claimed
`sync = true` with the ingestion result payload. -/
theorem C7_counterexample :
    submitCeleryTask 11 (SubmitResult.ok "tid".data) = SubmitResult.raisedTimeout ∧
    reindexFileAsyncEndpoint SubmitResult.raisedTimeout (3, 7) =
      Except.ok (⟨none, false, none⟩, false) := by
  constructor
  · unfold submitCeleryTask celerySubmitTimeout
    rw [if_pos (by norm_num : (10 : ℚ) < 11)]
  · rfl

/-- Claim C7 amended: the submit call is bounded by
`CELERY_SUBMIT_TIMEOUT = 10` seconds; queue-unavailability (ConnectionError /
OperationalError / DNS failure) degrades the reindex endpoint to synchronous
in-process execution returning `task_id = null`, `sync = true` and the result
payload; but on submit TIMEOUT the reindex endpoints return `task_id = null`
with `sync = false` and no payload without executing (only the add-files
endpoint also degrades to synchronous execution on timeout); any other
submit exception propagates as an error. -/
theorem C7_amended_submit_degradation (counts : Nat × Nat) :
    celerySubmitTimeout = 10 ∧
    (∀ (d : ℚ) (out : SubmitResult),
      celerySubmitTimeout < d → submitCeleryTask d out = SubmitResult.raisedTimeout) ∧
    (∀ (d : ℚ) (out : SubmitResult),
      ¬celerySubmitTimeout < d → submitCeleryTask d out = out) ∧
    reindexFileAsyncEndpoint SubmitResult.raisedTimeout counts =
      Except.ok (⟨none, false, none⟩, false) ∧
    addFilesAsyncEndpoint SubmitResult.raisedTimeout counts =
      Except.ok (⟨none, true, some counts⟩, true) ∧
    (∀ n m, isQueueUnavailable n m = true →
      reindexFileAsyncEndpoint (SubmitResult.raised n m) counts =
        Except.ok (⟨none, true, some counts⟩, true)) ∧
    (∀ n m, isQueueUnavailable n m = false →
      reindexFileAsyncEndpoint (SubmitResult.raised n m) counts = Except.error m) := by
  refine ⟨rfl, ?_, ?_, rfl, rfl, ?_, ?_⟩
  · intro d out hd; unfold submitCeleryTask; rw [if_pos hd]
  · intro d out hd; unfold submitCeleryTask; rw [if_neg hd]
  · intro n m hq; simp [reindexFileAsyncEndpoint, hq]
  · intro n m hq; simp [reindexFileAsyncEndpoint, hq]

/-- Witness for the amended C7 at concrete inputs: an 11 s submit times out,
a 5 s submit completes, a ConnectionError degrades to sync execution, and a
ValueError propagates. -/
theorem C7_amended_submit_degradation_witness :
    ((10 : ℚ) < 11 ∧ submitCeleryTask 11 (SubmitResult.ok "t".data) = SubmitResult.raisedTimeout) ∧
    (¬(10 : ℚ) < 5 ∧ submitCeleryTask 5 (SubmitResult.ok "t".data) = SubmitResult.ok "t".data) ∧
    (isQueueUnavailable "redis.exceptions.ConnectionError".data [] = true ∧
      reindexFileAsyncEndpoint (SubmitResult.raised "redis.exceptions.ConnectionError".data []) (3, 7) =
        Except.ok (⟨none, true, some (3, 7)⟩, true)) ∧
    (isQueueUnavailable "ValueError".data "boom".data = false ∧
      reindexFileAsyncEndpoint (SubmitResult.raised "ValueError".data "boom".data) (3, 7) =
        Except.error "boom".data) := by
  have hm := C7_amended_submit_degradation (3, 7)
  have h1 : (10 : ℚ) < 11 := by norm_num
  have h2 : ¬(10 : ℚ) < 5 := by norm_num
  have h3 : isQueueUnavailable "redis.exceptions.ConnectionError".data [] = true := by decide
  have h4 : isQueueUnavailable "ValueError".data "boom".data = false := by decide
  have hto := hm.2.1 11 (SubmitResult.ok "t".data) (by rw [hm.1]; exact h1)
  have hok := hm.2.2.1 5 (SubmitResult.ok "t".data) (by rw [hm.1]; exact h2)
  exact ⟨⟨h1, hto⟩, ⟨h2, hok⟩, ⟨h3, hm.2.2.2.2.2.1 _ _ h3⟩, ⟨h4, hm.2.2.2.2.2.2 _ _ h4⟩⟩

end AsyncApi

/-! ## C9: upload dedup and overwrite -/

namespace Upload

/-- Claim C9 evaluated at the failing input (code bug): a user-1 file with
md5 "h0", three chunk rows and one KB link; re-uploading bytes with the same
hash under policy `use_existing` returns the stored record unchanged, and
under policy `overwrite` returns the same file id with chunk rows deleted,
KB links deleted, bytes replaced at the same storage key and `chunk_count`
reset to 0 — but `vectorDeletes` stays empty: the `vs.delete_by_chunk_ids`
call raises `AttributeError` (no such method exists on either vector-store
class) inside `except Exception: pass`, so contrary to the claim the file's
vectors are never deleted. -/
theorem C9_overwrite_never_deletes_vectors :
    uploadFile (fun _ => "h0".data) 1000 ⟨true, true, true, true⟩ [9, 9]
        "b.txt".data "txt".data 1 (some "use_existing".data) "use_existing".data 99
        ⟨[⟨5, 1, "a.txt".data, "txt".data, 3, "1/h0/a.txt".data, "h0".data, 3, .completed⟩],
          [(101, 5), (102, 5), (103, 5)], [(9, 5)], [("1/h0/a.txt".data, [1, 2, 3])], []⟩
      = Except.ok
        (⟨5, 1, "a.txt".data, "txt".data, 3, "1/h0/a.txt".data, "h0".data, 3, .completed⟩,
          ⟨[⟨5, 1, "a.txt".data, "txt".data, 3, "1/h0/a.txt".data, "h0".data, 3, .completed⟩],
            [(101, 5), (102, 5), (103, 5)], [(9, 5)], [("1/h0/a.txt".data, [1, 2, 3])], []⟩) ∧
    uploadFile (fun _ => "h0".data) 1000 ⟨true, true, true, true⟩ [9, 9]
        "b.txt".data "txt".data 1 (some "overwrite".data) "use_existing".data 99
        ⟨[⟨5, 1, "a.txt".data, "txt".data, 3, "1/h0/a.txt".data, "h0".data, 3, .completed⟩],
          [(101, 5), (102, 5), (103, 5)], [(9, 5)], [("1/h0/a.txt".data, [1, 2, 3])], []⟩
      = Except.ok
        (⟨5, 1, "b.txt".data, "txt".data, 2, "1/h0/a.txt".data, "h0".data, 0, .completed⟩,
          ⟨[⟨5, 1, "b.txt".data, "txt".data, 2, "1/h0/a.txt".data, "h0".data, 0, .completed⟩],
            [], [], [("1/h0/a.txt".data, [9, 9])], []⟩) := by
  constructor
  · rfl
  · rfl

end Upload

/-! ## C3: single-KB empty-retrieval fallback -/

namespace Retrieval

theorem mem_fallbackQuery {kbChunks : List RChunk} {lim : Nat} {c : RChunk}
    (hc : c ∈ fallbackQuery kbChunks lim) : c.content ≠ [] ∧ c ∈ kbChunks := by
  unfold fallbackQuery at hc
  have h1 : c ∈ List.insertionSort (fun a b => a.id ≤ b.id)
      (kbChunks.filter (fun c => c.content ≠ [])) := (List.take_sublist _ _).subset hc
  have h2 : c ∈ kbChunks.filter (fun c => c.content ≠ []) :=
    (List.mem_insertionSort _).mp h1
  have h3 := List.mem_filter.mp h2
  exact ⟨by simpa using h3.2, h3.1⟩

theorem fallbackQuery_sorted (kbChunks : List RChunk) (lim : Nat) :
    (fallbackQuery kbChunks lim).Pairwise (fun a b => a.id ≤ b.id) :=
  List.Pairwise.sublist (List.take_sublist _ _) (List.sorted_insertionSort _ _)

theorem fallbackQuery_length (kbChunks : List RChunk) (lim : Nat) :
    (fallbackQuery kbChunks lim).length
      = min lim (kbChunks.filter (fun c => c.content ≠ [])).length := by
  unfold fallbackQuery
  rw [List.length_take, (List.perm_insertionSort _ _).length_eq]

theorem fallbackQuery_eq_nil_iff (kbChunks : List RChunk) :
    fallbackQuery kbChunks 20 = [] ↔ kbChunks.filter (fun c => c.content ≠ []) = [] := by
  constructor
  · intro h
    have := fallbackQuery_length kbChunks 20
    rw [h] at this
    simp only [List.length_nil] at this
    have hlen : (kbChunks.filter (fun c => c.content ≠ [])).length = 0 := by omega
    exact List.length_eq_zero.mp hlen
  · intro h
    unfold fallbackQuery
    rw [h]
    rfl

theorem fallbackQuery_filter_self (kbChunks : List RChunk) (lim : Nat) :
    (fallbackQuery kbChunks lim).filter (fun c => c.content ≠ [])
      = fallbackQuery kbChunks lim := by
  apply List.filter_eq_self.mpr
  intro c hc
  simpa using (mem_fallbackQuery hc).1

/-- Claim C3: a single-KB `_rag_context` call with `top_k = 10` in which the
dense and lexical paths contributed no ranked candidate (empty RRF score
dict) returns the first 20 chunks of the KB — non-empty-content chunks only,
ordered by ascending chunk id — as the selected chunks, their blank-line
concatenation truncated to 8000 chars as the context, and confidence exactly
0.5; it returns the empty context with confidence 0.0 exactly when the KB has
no non-empty chunk at all. -/
theorem C3_single_kb_fallback (k : ℚ) (useRerank : Bool)
    (rerankRes : Option (List RerankItem)) (kbChunks : List RChunk)
    (window : Nat) (expandFn : List RChunk → List RChunk) :
    (ragContextCore 10 k useRerank rerankRes [] kbChunks window expandFn).chunks
        = fallbackQuery kbChunks 20 ∧
    (fallbackQuery kbChunks 20 ≠ [] →
      ragContextCore 10 k useRerank rerankRes [] kbChunks window expandFn =
        { context := (joinBlank ((fallbackQuery kbChunks 20).map (fun c => c.content))).take 8000
          confidence := 1 / 2
          maxConfContext := ((fallbackQuery kbChunks 20).head?).map (fun c => c.content)
          chunks := fallbackQuery kbChunks 20 }) ∧
    (kbChunks.filter (fun c => c.content ≠ []) = [] →
      ragContextCore 10 k useRerank rerankRes [] kbChunks window expandFn = ⟨[], 0, none, []⟩) ∧
    (fallbackQuery kbChunks 20 = [] ↔ kbChunks.filter (fun c => c.content ≠ []) = []) ∧
    (fallbackQuery kbChunks 20).Pairwise (fun a b => a.id ≤ b.id) ∧
    (∀ c ∈ fallbackQuery kbChunks 20, c.content ≠ [] ∧ c ∈ kbChunks) ∧
    (fallbackQuery kbChunks 20).length
      = min 20 (kbChunks.filter (fun c => c.content ≠ [])).length := by
  have h20 : (10 : Nat) * 2 = 20 := by norm_num
  refine ⟨?_, ?_, ?_, fallbackQuery_eq_nil_iff kbChunks, fallbackQuery_sorted kbChunks 20,
    fun c hc => mem_fallbackQuery hc, fallbackQuery_length kbChunks 20⟩
  · unfold ragContextCore
    rw [if_pos rfl, h20]
    by_cases hfb : fallbackQuery kbChunks 20 = []
    · rw [if_neg (by simpa using hfb)]
      simp [hfb]
    · rw [if_pos (by simpa using hfb)]
  · intro hfb
    unfold ragContextCore
    rw [if_pos rfl, h20, if_pos (by simpa using hfb)]
    rw [fallbackQuery_filter_self]
  · intro hfilter
    have hfb : fallbackQuery kbChunks 20 = [] :=
      (fallbackQuery_eq_nil_iff kbChunks).mpr hfilter
    unfold ragContextCore
    rw [if_pos rfl, h20, if_neg (by simpa using hfb)]

/-- Witness for C3 at a concrete three-chunk table (one chunk has empty
content, ids out of order): the fallback is non-empty and the theorem's
description of the result applies. -/
theorem C3_single_kb_fallback_witness :
    fallbackQuery [⟨2, 1, 0, ['B']⟩, ⟨1, 1, 0, ['A']⟩, ⟨3, 1, 1, []⟩] 20 ≠ [] ∧
    ragContextCore 10 60 true none [] [⟨2, 1, 0, ['B']⟩, ⟨1, 1, 0, ['A']⟩, ⟨3, 1, 1, []⟩] 0 id =
      { context := (joinBlank ((fallbackQuery
            [⟨2, 1, 0, ['B']⟩, ⟨1, 1, 0, ['A']⟩, ⟨3, 1, 1, []⟩] 20).map
            (fun c => c.content))).take 8000
        confidence := 1 / 2
        maxConfContext := ((fallbackQuery
            [⟨2, 1, 0, ['B']⟩, ⟨1, 1, 0, ['A']⟩, ⟨3, 1, 1, []⟩] 20).head?).map
            (fun c => c.content)
        chunks := fallbackQuery [⟨2, 1, 0, ['B']⟩, ⟨1, 1, 0, ['A']⟩, ⟨3, 1, 1, []⟩] 20 } :=
  ⟨by decide,
    (C3_single_kb_fallback 60 true none
      [⟨2, 1, 0, ['B']⟩, ⟨1, 1, 0, ['A']⟩, ⟨3, 1, 1, []⟩] 0 id).2.1 (by decide)⟩

end Retrieval

/-! ## C4: confidence computation -/

namespace Retrieval

theorem foldl_max_self (c : ℚ) :
    ∀ l : List α, List.foldl max c (l.map (fun _ => c)) = c := by
  intro l
  induction l with
  | nil => rfl
  | cons x l ih => simpa using ih

theorem maxQ_map_const (c : ℚ) (l : List α) (h : l ≠ []) :
    maxQ (l.map (fun _ => c)) = c := by
  cases l with
  | nil => exact absurd rfl h
  | cons x rest => exact foldl_max_self c rest

theorem placeholderTriples_length (cands : List (RChunk × ℚ)) (topK : Nat) :
    (placeholderTriples cands topK).length = min topK cands.length := by
  simp [placeholderTriples]

theorem take_candidates_ne_nil {rrfScores : List (RChunk × ℚ)} (hne : rrfScores ≠ [])
    {topK : Nat} (ht : 0 < topK) : (sortCandidates rrfScores).take (topK * 2) ≠ [] := by
  apply List.ne_nil_of_length_pos
  rw [List.length_take]
  unfold sortCandidates
  rw [(List.perm_insertionSort _ _).length_eq]
  have := List.length_pos.mpr hne
  omega

theorem placeholderTriples_ne_nil {cands : List (RChunk × ℚ)} (hc : cands ≠ [])
    {topK : Nat} (ht : 0 < topK) : placeholderTriples cands topK ≠ [] := by
  apply List.ne_nil_of_length_pos
  rw [placeholderTriples_length]
  have := List.length_pos.mpr hc
  omega

theorem placeholderTriples_take (cands : List (RChunk × ℚ)) (topK : Nat) :
    (placeholderTriples cands topK).take topK = placeholderTriples cands topK :=
  List.take_of_length_le (by rw [placeholderTriples_length]; omega)

theorem rerankTriples_nil (items : List RerankItem) : rerankTriples [] items = [] := by
  unfold rerankTriples
  induction items with
  | nil => rfl
  | cons it items ih =>
    rw [List.foldl_cons]
    exact ih

theorem placeholderTriples_nil (topK : Nat) : placeholderTriples [] topK = [] := by
  simp [placeholderTriples]

theorem finalChunksOf_nil (topK : Nat) (useRerank : Bool)
    (rerankRes : Option (List RerankItem)) : finalChunksOf topK useRerank rerankRes [] = [] := by
  cases useRerank with
  | false => exact placeholderTriples_nil topK
  | true =>
    cases rerankRes with
    | none => exact placeholderTriples_nil topK
    | some items =>
      show (if rerankTriples [] items = [] then placeholderTriples [] topK
        else rerankTriples [] items) = []
      rw [rerankTriples_nil, if_pos rfl]
      exact placeholderTriples_nil topK

theorem confidenceOf_placeholder (k : ℚ) {cands : List (RChunk × ℚ)} (hc : cands ≠ [])
    {topK : Nat} (ht : 0 < topK) :
    confidenceOf k ((placeholderTriples cands topK).take topK) = 1 / 2 := by
  rw [placeholderTriples_take]
  have hrel : (placeholderTriples cands topK).map (fun t => t.2.1)
      = (cands.take topK).map (fun _ => (1 : ℚ) / 2) := by
    unfold placeholderTriples
    rw [List.map_map]
    rfl
  have htk : cands.take topK ≠ [] := by
    apply List.ne_nil_of_length_pos
    rw [List.length_take]
    have := List.length_pos.mpr hc
    omega
  unfold confidenceOf
  rw [hrel, maxQ_map_const _ _ htk]
  norm_num

/-- The confidence returned on the ranked (non-fallback) path is
`confidenceOf k selected` for the selected triples. -/
theorem ragContextCore_confidence (topK : Nat) (k : ℚ) (useRerank : Bool)
    (rerankRes : Option (List RerankItem)) (rrfScores : List (RChunk × ℚ))
    (kbChunks : List RChunk) (window : Nat) (expandFn : List RChunk → List RChunk)
    (hne : rrfScores ≠ [])
    (hsel : (finalChunksOf topK useRerank rerankRes
      ((sortCandidates rrfScores).take (topK * 2))).take topK ≠ []) :
    (ragContextCore topK k useRerank rerankRes rrfScores kbChunks window expandFn).confidence
      = confidenceOf k ((finalChunksOf topK useRerank rerankRes
          ((sortCandidates rrfScores).take (topK * 2))).take topK) := by
  have hcand : (sortCandidates rrfScores).take (topK * 2) ≠ [] := by
    intro h
    apply hsel
    rw [h, finalChunksOf_nil]
    simp
  unfold ragContextCore
  rw [if_neg hne, if_neg hcand, if_neg hsel]

/-- Counterexample to claim C4 as stated: a single-KB retrieval with rerank
disabled and one ranked candidate whose accumulated RRF score is 1/61.  The
claim prescribes confidence `min(1, (1/61) * 60) = 60/61`; the code assigns
every selected chunk the placeholder relevance 0.5 when rerank is skipped and
returns confidence 0.5 (the RRF-derived formula is reached only when the
maximum relevance score is exactly 0.0). -/
theorem C4_counterexample :
    (ragContextCore 10 60 false none [(⟨1, 1, 0, ['A']⟩, 1 / 61)] [] 0 id).confidence = 1 / 2 ∧
    maxQ ([((⟨1, 1, 0, ['A']⟩ : RChunk), (1 : ℚ) / 61)].map (fun p => p.2)) = 1 / 61 ∧
    min 1 ((1 : ℚ) / 61 * 60) ≠ 1 / 2 := by
  refine ⟨?_, rfl, ?_⟩
  · have hc : ((sortCandidates [(⟨1, 1, 0, ['A']⟩, (1 : ℚ) / 61)]).take (10 * 2)) ≠ [] := by
      show ([(⟨1, 1, 0, ['A']⟩, (1 : ℚ) / 61)] : List (RChunk × ℚ)) ≠ []
      simp
    have hsel : (finalChunksOf 10 false none
        ((sortCandidates [(⟨1, 1, 0, ['A']⟩, (1 : ℚ) / 61)]).take (10 * 2))).take 10 ≠ [] := by
      show ([(⟨1, 1, 0, ['A']⟩, (1 : ℚ) / 2, (1 : ℚ) / 61)] : List (RChunk × ℚ × ℚ)) ≠ []
      simp
    rw [ragContextCore_confidence 10 60 false none _ [] 0 id (by simp) hsel]
    exact confidenceOf_placeholder 60 hc (by norm_num)
  · have h60 : (1 : ℚ) / 61 * 60 = 60 / 61 := by norm_num
    rw [h60, min_eq_right (by norm_num : (60 : ℚ) / 61 ≤ 1)]
    norm_num

/-- Claim C4 amended: with at least one ranked candidate, (i) when reranking
is skipped (KB toggle off) — and likewise when the reranker raises or keeps
no candidate — every selected chunk carries the placeholder relevance 0.5 and
the returned confidence is exactly 0.5, not `min(1, top_rrf * RRF_K)`;
(ii) when reranking ran and kept candidates, the confidence is the maximum
reranker relevance among the selected triples if that maximum is nonzero;
the `min(1, top_rrf * k)` derivation applies only when the maximum relevance
equals 0.0 and the top accumulated RRF score is positive (and 0.0 when even
that is not positive). -/
theorem C4_amended_confidence (topK : Nat) (k : ℚ) (rrfScores : List (RChunk × ℚ))
    (kbChunks : List RChunk) (window : Nat) (expandFn : List RChunk → List RChunk)
    (hne : rrfScores ≠ []) (ht : 0 < topK) :
    (∀ rerankRes, (ragContextCore topK k false rerankRes rrfScores kbChunks window
      expandFn).confidence = 1 / 2) ∧
    ((ragContextCore topK k true none rrfScores kbChunks window expandFn).confidence = 1 / 2) ∧
    (∀ items, rerankTriples ((sortCandidates rrfScores).take (topK * 2)) items = [] →
      (ragContextCore topK k true (some items) rrfScores kbChunks window
        expandFn).confidence = 1 / 2) ∧
    (∀ items, rerankTriples ((sortCandidates rrfScores).take (topK * 2)) items ≠ [] →
      (ragContextCore topK k true (some items) rrfScores kbChunks window
        expandFn).confidence = confidenceOf k
          ((rerankTriples ((sortCandidates rrfScores).take (topK * 2)) items).take topK)) ∧
    (∀ sel : List (RChunk × ℚ × ℚ),
      (maxQ (sel.map (fun t => t.2.1)) ≠ 0 →
        confidenceOf k sel = maxQ (sel.map (fun t => t.2.1))) ∧
      (maxQ (sel.map (fun t => t.2.1)) = 0 → 0 < maxQ (sel.map (fun t => t.2.2)) →
        confidenceOf k sel = min 1 (maxQ (sel.map (fun t => t.2.2)) * k)) ∧
      (maxQ (sel.map (fun t => t.2.1)) = 0 → ¬0 < maxQ (sel.map (fun t => t.2.2)) →
        confidenceOf k sel = 0)) := by
  have hcand := take_candidates_ne_nil hne ht
  have hplace : placeholderTriples ((sortCandidates rrfScores).take (topK * 2)) topK ≠ [] :=
    placeholderTriples_ne_nil hcand ht
  have hptake := placeholderTriples_take ((sortCandidates rrfScores).take (topK * 2)) topK
  refine ⟨?_, ?_, ?_, ?_, ?_⟩
  · intro rerankRes
    have hsel : (finalChunksOf topK false rerankRes
        ((sortCandidates rrfScores).take (topK * 2))).take topK ≠ [] := by
      show (placeholderTriples ((sortCandidates rrfScores).take (topK * 2)) topK).take topK ≠ []
      rw [hptake]; exact hplace
    rw [ragContextCore_confidence topK k false rerankRes rrfScores kbChunks window expandFn
      hne hsel]
    exact confidenceOf_placeholder k hcand ht
  · have hsel : (finalChunksOf topK true none
        ((sortCandidates rrfScores).take (topK * 2))).take topK ≠ [] := by
      show (placeholderTriples ((sortCandidates rrfScores).take (topK * 2)) topK).take topK ≠ []
      rw [hptake]; exact hplace
    rw [ragContextCore_confidence topK k true none rrfScores kbChunks window expandFn hne hsel]
    exact confidenceOf_placeholder k hcand ht
  · intro items hfc
    have hfin : finalChunksOf topK true (some items)
        ((sortCandidates rrfScores).take (topK * 2))
          = placeholderTriples ((sortCandidates rrfScores).take (topK * 2)) topK := by
      show (if rerankTriples ((sortCandidates rrfScores).take (topK * 2)) items = []
        then placeholderTriples ((sortCandidates rrfScores).take (topK * 2)) topK
        else rerankTriples ((sortCandidates rrfScores).take (topK * 2)) items)
          = placeholderTriples ((sortCandidates rrfScores).take (topK * 2)) topK
      rw [if_pos hfc]
    have hsel : (finalChunksOf topK true (some items)
        ((sortCandidates rrfScores).take (topK * 2))).take topK ≠ [] := by
      rw [hfin, hptake]; exact hplace
    rw [ragContextCore_confidence topK k true (some items) rrfScores kbChunks window expandFn
      hne hsel, hfin]
    exact confidenceOf_placeholder k hcand ht
  · intro items hfc
    have hfin : finalChunksOf topK true (some items)
        ((sortCandidates rrfScores).take (topK * 2))
          = rerankTriples ((sortCandidates rrfScores).take (topK * 2)) items := by
      show (if rerankTriples ((sortCandidates rrfScores).take (topK * 2)) items = []
        then placeholderTriples ((sortCandidates rrfScores).take (topK * 2)) topK
        else rerankTriples ((sortCandidates rrfScores).take (topK * 2)) items)
          = rerankTriples ((sortCandidates rrfScores).take (topK * 2)) items
      rw [if_neg hfc]
    have hsel : (finalChunksOf topK true (some items)
        ((sortCandidates rrfScores).take (topK * 2))).take topK ≠ [] := by
      rw [hfin]
      apply List.ne_nil_of_length_pos
      rw [List.length_take]
      have := List.length_pos.mpr hfc
      omega
    rw [ragContextCore_confidence topK k true (some items) rrfScores kbChunks window expandFn
      hne hsel, hfin]
  · intro sel
    refine ⟨?_, ?_, ?_⟩
    · intro hrel
      unfold confidenceOf
      rw [if_neg hrel]
    · intro hrel hrrf
      unfold confidenceOf
      rw [if_pos hrel, if_pos hrrf]
    · intro hrel hrrf
      unfold confidenceOf
      rw [if_pos hrel, if_neg hrrf]
      exact hrel

/-- Witness for the amended C4 at the singleton-candidate input with rerank
disabled: the hypotheses hold and the returned confidence is 0.5. -/
theorem C4_amended_confidence_witness :
    ([((⟨1, 1, 0, ['A']⟩ : RChunk), (1 : ℚ) / 61)] : List (RChunk × ℚ)) ≠ [] ∧
    0 < 10 ∧
    (ragContextCore 10 60 false none [(⟨1, 1, 0, ['A']⟩, 1 / 61)] [] 0 id).confidence = 1 / 2 :=
  ⟨by simp, by norm_num,
    (C4_amended_confidence 10 60 [(⟨1, 1, 0, ['A']⟩, 1 / 61)] [] 0 id (by simp)
      (by norm_num)).1 none⟩

end Retrieval

/-! ## C5: low-confidence warning -/

namespace StrM

theorem isPrefixB_append (a b : List Char) : isPrefixB a (a ++ b) = true := by
  induction a with
  | nil => rfl
  | cons c a ih => simp [isPrefixB, ih]

end StrM

namespace ChatPrompt

/-- Counterexample to claim C5 as stated: a KB-scoped chat turn whose
retrieved context "DOC" is non-empty with confidence 0.5, strictly below the
threshold 0.6, yet the `low_confidence_warning` variable stays empty, the
assembled system context uses the plain KB header, and it does not contain
the warning text anywhere — the warning is only built on the all-KBs branch
of `_chat_after_user_message` / `chat_stream`. -/
theorem C5_counterexample :
    (chatAssemblyKb ⟨"DOC".data, 1 / 2, none, []⟩ [] (3 / 5) []).ragContext = "DOC".data ∧
    (chatAssemblyKb ⟨"DOC".data, 1 / 2, none, []⟩ [] (3 / 5) []).ragConfidence = 1 / 2 ∧
    ((1 : ℚ) / 2 < 3 / 5) ∧
    (chatAssemblyKb ⟨"DOC".data, 1 / 2, none, []⟩ [] (3 / 5) []).warning = [] ∧
    (chatAssemblyKb ⟨"DOC".data, 1 / 2, none, []⟩ [] (3 / 5) []).fullContext
      = headerPlain ++ "DOC".data ++ "\n\n".data ∧
    StrM.isInfixB warnHeadChat
      ((chatAssemblyKb ⟨"DOC".data, 1 / 2, none, []⟩ [] (3 / 5) []).fullContext) = false ∧
    (streamAssemblyKb ⟨"DOC".data, 1 / 2, none, []⟩ [] (3 / 5) []).warning = [] := by
  refine ⟨rfl, rfl, by norm_num, rfl, ?_, ?_, rfl⟩
  · decide
  · decide

theorem lowConfWarning_ne_nil (fmtConf fmtThreshold : List Char) :
    lowConfWarning fmtConf fmtThreshold ≠ [] := by
  unfold lowConfWarning
  intro h
  have : warnHeadChat ≠ [] := by decide
  exact this (List.append_eq_nil.mp (List.append_eq_nil.mp
    (List.append_eq_nil.mp (List.append_eq_nil.mp h).1).1).1).1

/-- Claim C5 amended: the low-confidence warning is prepended only on the
all-KBs path: there, whenever the retrieved context is non-empty and its
confidence is strictly below the threshold, the warning is set and the
composed system context starts with the low-confidence KB header followed by
the warning; with confidence at or above the threshold, or an empty context,
no warning is added.  On the KB-scoped path no warning is ever added,
whatever the confidence. -/
theorem C5_amended_warning_only_all_kbs (ragKb : Retrieval.RagResult)
    (kbChunks : List Retrieval.RChunk) (r : Retrieval.RagResult)
    (threshold : ℚ) (fmtConf fmtThreshold history : List Char) :
    (chatAssemblyKb ragKb kbChunks threshold history).warning = [] ∧
    (streamAssemblyKb ragKb kbChunks threshold history).warning = [] ∧
    (r.context ≠ [] → r.confidence < threshold →
      (chatAssemblyAll (some r) threshold fmtConf fmtThreshold history).warning
        = lowConfWarning fmtConf fmtThreshold ∧
      StrM.isPrefixB (headerLowConf ++ lowConfWarning fmtConf fmtThreshold)
        ((chatAssemblyAll (some r) threshold fmtConf fmtThreshold history).fullContext)
        = true ∧
      (streamAssemblyAll (some r) threshold fmtConf fmtThreshold history).warning
        = lowConfWarning fmtConf fmtThreshold) ∧
    (¬(r.context ≠ [] ∧ r.confidence < threshold) →
      (chatAssemblyAll (some r) threshold fmtConf fmtThreshold history).warning = []) ∧
    (chatAssemblyAll none threshold fmtConf fmtThreshold history).warning = [] := by
  have hw := lowConfWarning_ne_nil fmtConf fmtThreshold
  refine ⟨rfl, rfl, ?_, ?_, ?_⟩
  · intro hctx hconf
    have hcond : (r.context, r.confidence).1 ≠ [] ∧ (r.context, r.confidence).2 < threshold :=
      ⟨hctx, hconf⟩
    have hchat : chatAssemblyAll (some r) threshold fmtConf fmtThreshold history =
        { fullContext := assembleFullContext
            (lowConfWarning fmtConf fmtThreshold ++ "\n\n".data ++ r.context)
            (lowConfWarning fmtConf fmtThreshold) r.confidence threshold history
          warning := lowConfWarning fmtConf fmtThreshold
          ragContext := lowConfWarning fmtConf fmtThreshold ++ "\n\n".data ++ r.context
          ragConfidence := r.confidence } := by
      unfold chatAssemblyAll
      rw [if_pos hcond]
    have hrag1 : lowConfWarning fmtConf fmtThreshold ++ "\n\n".data ++ r.context ≠ [] := by
      simp [hw]
    have hfull : assembleFullContext
        (lowConfWarning fmtConf fmtThreshold ++ "\n\n".data ++ r.context)
        (lowConfWarning fmtConf fmtThreshold) r.confidence threshold history
        = (headerLowConf ++ lowConfWarning fmtConf fmtThreshold) ++
            (("\n\n".data ++ r.context ++ "\n\n".data) ++
              (if history ≠ [] then headerHistory ++ history ++ "\n\n".data else [])) := by
      unfold assembleFullContext
      rw [if_pos hrag1, if_pos ⟨hw, hconf⟩]
      simp [List.append_assoc]
    refine ⟨by rw [hchat], ?_, by unfold streamAssemblyAll; rw [hchat]⟩
    rw [hchat]
    show StrM.isPrefixB (headerLowConf ++ lowConfWarning fmtConf fmtThreshold)
      (assembleFullContext (lowConfWarning fmtConf fmtThreshold ++ "\n\n".data ++ r.context)
        (lowConfWarning fmtConf fmtThreshold) r.confidence threshold history) = true
    rw [hfull]
    exact StrM.isPrefixB_append _ _
  · intro hcond
    have hcond2 : ¬((r.context, r.confidence).1 ≠ [] ∧ (r.context, r.confidence).2 < threshold) :=
      hcond
    unfold chatAssemblyAll
    rw [if_neg hcond2]
  · rfl

/-- Witness for the amended C5: a concrete all-KBs retrieval with context "R"
and confidence 0.5 below threshold 0.6 receives the warning as a prefix of
the KB section, while the same data on the KB-scoped path gets none. -/
theorem C5_amended_warning_only_all_kbs_witness :
    ("R".data ≠ ([] : List Char)) ∧ ((1 : ℚ) / 2 < 3 / 5) ∧
    (chatAssemblyKb ⟨"R".data, 1 / 2, none, []⟩ [] (3 / 5) []).warning = [] ∧
    (chatAssemblyAll (some ⟨"R".data, 1 / 2, none, []⟩) (3 / 5) "0.50".data "0.6".data
      []).warning = lowConfWarning "0.50".data "0.6".data ∧
    StrM.isPrefixB (headerLowConf ++ lowConfWarning "0.50".data "0.6".data)
      ((chatAssemblyAll (some ⟨"R".data, 1 / 2, none, []⟩) (3 / 5) "0.50".data "0.6".data
        []).fullContext) = true := by
  have h1 : "R".data ≠ ([] : List Char) := by decide
  have h2 : (1 : ℚ) / 2 < 3 / 5 := by norm_num
  have hm := C5_amended_warning_only_all_kbs ⟨"R".data, 1 / 2, none, []⟩ []
    ⟨"R".data, 1 / 2, none, []⟩ (3 / 5) "0.50".data "0.6".data []
  have hr := hm.2.2.1 h1 h2
  exact ⟨h1, h2, hm.1, hr.1, hr.2.1⟩

end ChatPrompt

/-! ## C6: batch ingestion failure isolation -/

namespace Ingestion

/-- Counterexample to claim C6 as stated, at a three-file batch whose second
file hits an embedding-count mismatch (provider returns 0 vectors for 1
chunk): synchronous `add_files` raises `ValueError` — the whole batch is
rolled back, no `skipped` entry is returned, and the third file is never
processed — while `add_files_stream` records the skip and continues, and even
there the failed file's already-flushed chunk row `(2, "t2")` survives in the
committed state (only the KB-file link is removed). -/
theorem C6_counterexample :
    addFiles (fun t => [t])
      (fun fid => if fid = 2 then ⟨true, false, some "x".data, [], "t2".data, some 0, true⟩
        else ⟨true, false, some "x".data, [], "t".data, some 1, true⟩)
      [1, 2, 3] ⟨[], [], [], 0, 0⟩
      = Except.error reasonVectorize ∧
    addFilesStream (fun t => [t])
      (fun fid => if fid = 2 then ⟨true, false, some "x".data, [], "t2".data, some 0, true⟩
        else ⟨true, false, some "x".data, [], "t".data, some 1, true⟩)
      [1, 2, 3] ⟨[], [], [], 0, 0⟩
      = ([Event.fileStart 1, Event.fileDone 1 1,
          Event.fileStart 2, Event.fileSkip 2 reasonVectorize,
          Event.fileStart 3, Event.fileDone 3 1,
          Event.done [(2, reasonVectorize)]],
         ⟨[1, 3], [(1, "t".data), (2, "t2".data), (3, "t".data)], [(1, 1), (3, 1)], 2, 2⟩) := by
  constructor
  · rfl
  · rfl

/-- Claim C6 amended: a per-file vectorisation failure (embedding exception,
embedding-count-vs-chunk-count mismatch, or vector-store insert error) in
`add_files_stream` removes that file's KB link, records a skip, and the batch
continues with the remaining ids — but the file's already-flushed chunk rows
are NOT rolled back (they stay in the session and are committed) — whereas in
synchronous `add_files` the same failure raises `ValueError`, aborting the
whole batch with a rollback of every file's relational writes and without
returning any `skipped` list.  (Failures before vectorisation — unreadable
content, empty text, no chunks — are per-file skips in both variants.) -/
theorem C6_amended_vectorization_failure (chunkFn : List Char → List (List Char))
    (env : Nat → FileEnv) (fid : Nat) (rest : List Nat) (st : DbState)
    (skipped : List (Nat × List Char)) (evs : List Event) (bs : List Char)
    (hp : (env fid).present = true) (hl : (env fid).linked = false)
    (hc : (env fid).content = some bs) (ht : Chunker.strip (env fid).text ≠ [])
    (hch : chunkFn (env fid).text ≠ [])
    (hv : (env fid).embedOutcome = none ∨
      ∃ n, (env fid).embedOutcome = some n ∧
        (n ≠ (chunkFn (env fid).text).length ∨ (env fid).insertOk = false)) :
    addFilesGo chunkFn env (fid :: rest) st skipped = Except.error reasonVectorize ∧
    addFilesStreamGo chunkFn env (fid :: rest) st skipped evs
      = addFilesStreamGo chunkFn env rest
          { st with chunkRows := st.chunkRows ++ ((chunkFn (env fid).text).map
              (fun c => (fid, c))) }
          (skipped ++ [(fid, reasonVectorize)])
          (evs ++ [Event.fileStart fid, Event.fileSkip fid reasonVectorize]) := by
  rcases hv with hnone | ⟨n, hn, hbad⟩
  · constructor
    · simp [addFilesGo, hp, hl, hc, ht, hch, hnone]
    · simp [addFilesStreamGo, hp, hl, hc, ht, hch, hnone]
  · by_cases hn2 : n = (chunkFn (env fid).text).length
    · have hins : (env fid).insertOk = false := by
        rcases hbad with hbad | hbad
        · exact absurd hn2 hbad
        · exact hbad
      constructor
      · simp [addFilesGo, hp, hl, hc, ht, hch, hn, hn2, hins]
      · simp [addFilesStreamGo, hp, hl, hc, ht, hch, hn, hn2, hins]
    · constructor
      · simp [addFilesGo, hp, hl, hc, ht, hch, hn, hn2]
      · simp [addFilesStreamGo, hp, hl, hc, ht, hch, hn, hn2]

/-- Witness for the amended C6 at the counterexample's second file: its
environment satisfies every hypothesis (present, unlinked, readable content,
non-blank text, one chunk, embedding count 0 ≠ 1). -/
theorem C6_amended_vectorization_failure_witness :
    ((fun fid => if fid = 2
        then (⟨true, false, some "x".data, [], "t2".data, some 0, true⟩ : FileEnv)
        else ⟨true, false, some "x".data, [], "t".data, some 1, true⟩) 2).present = true ∧
    addFilesGo (fun t => [t])
      (fun fid => if fid = 2 then ⟨true, false, some "x".data, [], "t2".data, some 0, true⟩
        else ⟨true, false, some "x".data, [], "t".data, some 1, true⟩)
      [2, 3] ⟨[1], [(1, "t".data)], [(1, 1)], 1, 0⟩ []
      = Except.error reasonVectorize := by
  refine ⟨by decide, ?_⟩
  have hm := C6_amended_vectorization_failure (fun t => [t])
    (fun fid => if fid = 2 then ⟨true, false, some "x".data, [], "t2".data, some 0, true⟩
      else ⟨true, false, some "x".data, [], "t".data, some 1, true⟩)
    2 [3] ⟨[1], [(1, "t".data)], [(1, 1)], 1, 0⟩ [] [] "x".data
    (by decide) (by decide) (by decide) (by decide) (by decide)
    (Or.inr ⟨0, by decide, Or.inl (by decide)⟩)
  exact hm.1

end Ingestion

/-! ## C2: chunker length bounds -/

namespace Chunker

theorem joinSp_cons_cons (s y : List Char) (rest : List (List Char)) :
    joinSp (s :: y :: rest) = s ++ ' ' :: joinSp (y :: rest) := rfl

theorem joinSp_ne_nil {l : List (List Char)} (hne : l ≠ [])
    (helems : ∀ x ∈ l, x ≠ []) : joinSp l ≠ [] := by
  match l with
  | [] => exact absurd rfl hne
  | [s] => exact helems s (by simp)
  | s :: y :: rest =>
    rw [joinSp_cons_cons]
    simp

def sumLen (l : List (List Char)) : Nat := (l.map List.length).sum

theorem joinSp_length {l : List (List Char)} (hne : l ≠ []) :
    (joinSp l).length + 1 = sumLen l + l.length := by
  match l with
  | [] => exact absurd rfl hne
  | [s] => simp [joinSp, sumLen]
  | s :: y :: rest =>
    have ih := @joinSp_length (y :: rest) (by simp)
    rw [joinSp_cons_cons]
    simp only [List.length_append, List.length_cons, sumLen, List.map_cons, List.sum_cons] at *
    omega

theorem joinSp_append_last (l : List (List Char)) (s : List Char) :
    (joinSp (l ++ [s])).length
      = (joinSp l).length + s.length + (if l = [] then 0 else 1) := by
  match l with
  | [] => simp [joinSp]
  | [x] =>
    simp [joinSp]
    omega
  | x :: y :: rest =>
    have ih := joinSp_append_last (y :: rest) s
    have h1 : (x :: y :: rest) ++ [s] = x :: ((y :: rest) ++ [s]) := rfl
    rw [h1]
    have h2 : joinSp (x :: ((y :: rest) ++ [s]))
        = x ++ ' ' :: joinSp ((y :: rest) ++ [s]) := rfl
    rw [h2, joinSp_cons_cons]
    simp only [List.length_append, List.length_cons] at *
    simp only [if_neg (by simp : ¬(y :: rest = []))] at ih
    simp only [if_neg (by simp : ¬(x :: y :: rest = []))]
    omega

theorem takeOvAux_spec (ov : Nat) :
    ∀ (l : List (List Char)) (ol0 : Nat),
      (takeOvAux ov l ol0).2 = ol0 + sumLen (takeOvAux ov l ol0).1
        + (takeOvAux ov l ol0).1.length ∧
      ((takeOvAux ov l ol0).1 ≠ [] → (takeOvAux ov l ol0).2 ≤ ov + 1) ∧
      (∀ x ∈ (takeOvAux ov l ol0).1, x ∈ l) := by
  intro l
  induction l with
  | nil => intro ol0; refine ⟨by simp [takeOvAux, sumLen], by simp [takeOvAux], by simp [takeOvAux]⟩
  | cons s rest ih =>
    intro ol0
    by_cases h : ol0 + s.length ≤ ov
    · have hstep : takeOvAux ov (s :: rest) ol0 =
          ((takeOvAux ov rest (ol0 + s.length + 1)).1 ++ [s],
            (takeOvAux ov rest (ol0 + s.length + 1)).2) := by
        simp [takeOvAux, h]
      obtain ⟨ih1, ih2, ih3⟩ := ih (ol0 + s.length + 1)
      rw [hstep]
      refine ⟨?_, ?_, ?_⟩
      · simp only [sumLen, List.map_append, List.sum_append, List.length_append] at *
        simp only [List.map_cons, List.sum_cons, List.map_nil, List.sum_nil, List.length_cons,
          List.length_nil]
        omega
      · intro _
        by_cases hrest : (takeOvAux ov rest (ol0 + s.length + 1)).1 = []
        · rw [hrest] at ih1
          simp only [sumLen, List.map_nil, List.sum_nil, List.length_nil] at ih1
          omega
        · exact ih2 hrest
      · intro x hx
        rcases List.mem_append.mp hx with hx | hx
        · exact List.mem_cons_of_mem _ (ih3 x hx)
        · simp only [List.mem_singleton] at hx
          subst hx
          exact List.mem_cons_self _ _
    · have hstep : takeOvAux ov (s :: rest) ol0 = ([], ol0) := by
        simp [takeOvAux, h]
      rw [hstep]
      refine ⟨by simp [sumLen], by simp, by simp⟩

theorem takeOverlap_spec (cur : List (List Char)) (ov : Nat) :
    (takeOverlap cur ov).2 = sumLen (takeOverlap cur ov).1 + (takeOverlap cur ov).1.length ∧
    ((takeOverlap cur ov).1 ≠ [] → (takeOverlap cur ov).2 ≤ ov + 1) ∧
    (∀ x ∈ (takeOverlap cur ov).1, x ∈ cur) := by
  obtain ⟨h1, h2, h3⟩ := takeOvAux_spec ov cur.reverse 0
  refine ⟨by simpa using h1, h2, fun x hx => List.mem_reverse.mp (h3 x hx)⟩

end Chunker

namespace Chunker

theorem splitSubs_mem_ne_nil {s x : List Char} (hx : x ∈ splitSubs s) : x ≠ [] := by
  unfold splitSubs at hx
  have := List.mem_filter.mp hx
  simpa using this.2

theorem regexSentences_mem_ne_nil {text s : List Char} (hs : s ∈ regexSentences text) :
    s ≠ [] := by
  unfold regexSentences at hs
  have h2 : Chunker.strip s ≠ [] := by simpa using (List.mem_filter.mp hs).2
  intro h
  subst h
  exact h2 rfl

theorem paraSentences_mem_ne_nil {text s : List Char} (hs : s ∈ paraSentences text) :
    s ≠ [] := by
  unfold paraSentences at hs
  simpa using (List.mem_filter.mp hs).2

theorem windowChunks_spec (cs ov : Nat) (hcs : 0 < cs) :
    ∀ (fuel : Nat) (text : List Char) (start : Nat),
      ∀ c ∈ windowChunks cs ov fuel text start, c ≠ [] ∧ c.length ≤ cs := by
  intro fuel
  induction fuel with
  | zero => intro text start c hc; simp [windowChunks] at hc
  | succ fuel ih =>
    intro text start c hc
    by_cases hlt : start < text.length
    · rw [windowChunks, if_pos hlt] at hc
      rcases List.mem_cons.mp hc with rfl | hc
      · constructor
        · have hdrop : text.drop start ≠ [] := by
            intro h
            rw [List.drop_eq_nil_iff] at h
            omega
          intro h
          rw [List.take_eq_nil_iff] at h
          rcases h with h | h
          · omega
          · exact hdrop h
        · simp [List.length_take]
      · by_cases hnxt : start + cs - ov ≥ text.length
        · rw [if_pos hnxt] at hc
          simp at hc
        · rw [if_neg hnxt] at hc
          exact ih text _ c hc
    · rw [windowChunks, if_neg hlt] at hc
      simp at hc

theorem subLoop_inv (m bnd : Nat) (E : List Char → Prop) (hbnd : m + 1 ≤ bnd) :
    ∀ (subs : List (List Char)) (st : CState),
      (∀ x ∈ subs, x ≠ [] ∧ (m < x.length → E x)) →
      (∀ c ∈ st.chunks, c ≠ [] ∧ (c.length ≤ bnd ∨ (E c ∧ m < c.length))) →
      (∀ x ∈ st.cur, x ≠ []) →
      (joinSp st.cur).length ≤ st.curLen →
      st.curLen ≤ m + 1 →
      (st.cur = [] → st.curLen = 0) →
      (∀ c ∈ (subLoop m subs st).chunks, c ≠ [] ∧ (c.length ≤ bnd ∨ (E c ∧ m < c.length))) ∧
      (∀ x ∈ (subLoop m subs st).cur, x ≠ []) ∧
      (joinSp (subLoop m subs st).cur).length ≤ (subLoop m subs st).curLen ∧
      (subLoop m subs st).curLen ≤ m + 1 ∧
      ((subLoop m subs st).cur = [] → (subLoop m subs st).curLen = 0) := by
  intro subs
  induction subs with
  | nil =>
    intro st _ hchunks hcur hjlen hclen hnil
    exact ⟨hchunks, hcur, hjlen, hclen, hnil⟩
  | cons sub rest ih =>
    intro st hsubs hchunks hcur hjlen hclen hnil
    obtain ⟨hsub_ne, hsub_E⟩ := hsubs sub (by simp)
    have hsubs' : ∀ x ∈ rest, x ≠ [] ∧ (m < x.length → E x) :=
      fun x hx => hsubs x (List.mem_cons_of_mem _ hx)
    by_cases hfit : st.curLen + sub.length ≤ m
    · have hstep : subLoop m (sub :: rest) st
          = subLoop m rest ⟨st.chunks, st.cur ++ [sub], st.curLen + sub.length + 1⟩ := by
        rw [subLoop, if_pos hfit]
      rw [hstep]
      apply ih
      · exact hsubs'
      · exact hchunks
      · intro x hx
        rcases List.mem_append.mp hx with hx | hx
        · exact hcur x hx
        · simp only [List.mem_singleton] at hx; subst hx; exact hsub_ne
      · show (joinSp (st.cur ++ [sub])).length ≤ st.curLen + sub.length + 1
        rw [joinSp_append_last]
        by_cases hc : st.cur = []
        · rw [if_pos hc, hc]
          simp [joinSp]
          omega
        · rw [if_neg hc]
          omega
      · show st.curLen + sub.length + 1 ≤ m + 1
        omega
      · simp
    · have hchunks1 : ∀ c ∈ (if st.cur ≠ [] then st.chunks ++ [joinSp st.cur] else st.chunks),
          c ≠ [] ∧ (c.length ≤ bnd ∨ (E c ∧ m < c.length)) := by
        by_cases hc : st.cur = []
        · rw [if_neg (by simp [hc])]
          exact hchunks
        · rw [if_pos hc]
          intro c hcm
          rcases List.mem_append.mp hcm with hcm | hcm
          · exact hchunks c hcm
          · simp only [List.mem_singleton] at hcm
            subst hcm
            exact ⟨joinSp_ne_nil hc hcur, Or.inl (by omega)⟩
      by_cases hbig : sub.length > m
      · have hstep : subLoop m (sub :: rest) st
            = subLoop m rest ⟨(if st.cur ≠ [] then st.chunks ++ [joinSp st.cur]
                else st.chunks) ++ [sub], [], 0⟩ := by
          rw [subLoop, if_neg hfit, if_pos hbig]
        rw [hstep]
        apply ih
        · exact hsubs'
        · intro c hcm
          rcases List.mem_append.mp hcm with hcm | hcm
          · exact hchunks1 c hcm
          · simp only [List.mem_singleton] at hcm
            subst hcm
            exact ⟨hsub_ne, Or.inr ⟨hsub_E hbig, hbig⟩⟩
        · simp
        · simp [joinSp]
        · show (0 : Nat) ≤ m + 1
          omega
        · simp
      · have hstep : subLoop m (sub :: rest) st
            = subLoop m rest ⟨(if st.cur ≠ [] then st.chunks ++ [joinSp st.cur]
                else st.chunks), [sub], sub.length⟩ := by
          rw [subLoop, if_neg hfit, if_neg hbig]
        rw [hstep]
        apply ih
        · exact hsubs'
        · exact hchunks1
        · intro x hx
          simp only [List.mem_singleton] at hx; subst hx; exact hsub_ne
        · simp [joinSp]
        · show sub.length ≤ m + 1
          omega
        · simp

end Chunker

namespace Chunker

theorem mainLoop_inv (cs m ov bnd : Nat) (E : List Char → Prop)
    (hbnd : bnd = m + ov + 1) (hcs : cs ≤ m) :
    ∀ (sents : List (List Char)) (st : CState),
      (∀ s ∈ sents, s ≠ [] ∧ ∀ x ∈ splitSubs s, m < s.length → m < x.length → E x) →
      (∀ c ∈ st.chunks, c ≠ [] ∧ (c.length ≤ bnd ∨ (E c ∧ m < c.length))) →
      (∀ x ∈ st.cur, x ≠ []) →
      (joinSp st.cur).length ≤ st.curLen →
      (joinSp st.cur).length ≤ bnd →
      (st.cur = [] → st.curLen = 0) →
      (∀ c ∈ (mainLoop cs m ov sents st).chunks,
        c ≠ [] ∧ (c.length ≤ bnd ∨ (E c ∧ m < c.length))) ∧
      (∀ x ∈ (mainLoop cs m ov sents st).cur, x ≠ []) ∧
      (joinSp (mainLoop cs m ov sents st).cur).length ≤ (mainLoop cs m ov sents st).curLen ∧
      (joinSp (mainLoop cs m ov sents st).cur).length ≤ bnd ∧
      ((mainLoop cs m ov sents st).cur = [] → (mainLoop cs m ov sents st).curLen = 0) := by
  intro sents
  induction sents with
  | nil =>
    intro st _ hchunks hcur hjc hjb hnil
    exact ⟨hchunks, hcur, hjc, hjb, hnil⟩
  | cons sentence rest ih =>
    intro st hsents hchunks hcur hjc hjb hnil
    obtain ⟨hs_ne, hs_E⟩ := hsents sentence (by simp)
    have hsents' : ∀ s ∈ rest, s ≠ [] ∧ ∀ x ∈ splitSubs s, m < s.length → m < x.length → E x :=
      fun s hs => hsents s (List.mem_cons_of_mem _ hs)
    have hchunks1 : ∀ c ∈ (if st.cur ≠ [] then st.chunks ++ [joinSp st.cur] else st.chunks),
        c ≠ [] ∧ (c.length ≤ bnd ∨ (E c ∧ m < c.length)) := by
      by_cases hc : st.cur = []
      · rw [if_neg (by simp [hc])]
        exact hchunks
      · rw [if_pos hc]
        intro c hcm
        rcases List.mem_append.mp hcm with hcm | hcm
        · exact hchunks c hcm
        · simp only [List.mem_singleton] at hcm
          subst hcm
          exact ⟨joinSp_ne_nil hc hcur, Or.inl hjb⟩
    by_cases hbig : sentence.length > m
    · have hstep : mainLoop cs m ov (sentence :: rest) st
          = mainLoop cs m ov rest (subLoop m (splitSubs sentence)
            (if st.cur ≠ [] then ⟨st.chunks ++ [joinSp st.cur], [], 0⟩ else st)) := by
        rw [mainLoop, if_pos hbig]
      rw [hstep]
      have hst1cur : (if st.cur ≠ [] then
          (⟨st.chunks ++ [joinSp st.cur], [], 0⟩ : CState) else st).cur = [] := by
        by_cases hc : st.cur = []
        · rw [if_neg (by simp [hc])]; exact hc
        · rw [if_pos hc]
      have hst1len : (if st.cur ≠ [] then
          (⟨st.chunks ++ [joinSp st.cur], [], 0⟩ : CState) else st).curLen = 0 := by
        by_cases hc : st.cur = []
        · rw [if_neg (by simp [hc])]; exact hnil hc
        · rw [if_pos hc]
      have hst1chunks : ∀ c ∈ (if st.cur ≠ [] then
          (⟨st.chunks ++ [joinSp st.cur], [], 0⟩ : CState) else st).chunks,
          c ≠ [] ∧ (c.length ≤ bnd ∨ (E c ∧ m < c.length)) := by
        by_cases hc : st.cur = []
        · rw [if_neg (by simp [hc])]; exact hchunks
        · rw [if_pos hc]
          intro c hcm
          exact hchunks1 c (by rwa [if_pos hc])
      obtain ⟨s1, s2, s3, s4, s5⟩ := subLoop_inv m bnd E (by omega) (splitSubs sentence) _
        (fun x hx => ⟨splitSubs_mem_ne_nil hx, fun hlen => hs_E x hx hbig hlen⟩)
        hst1chunks
        (by rw [hst1cur]; intro x hx; simp at hx)
        (by rw [hst1cur, hst1len]; simp [joinSp])
        (by rw [hst1len]; omega)
        (fun _ => hst1len)
      apply ih
      · exact hsents'
      · exact s1
      · exact s2
      · exact s3
      · calc (joinSp (subLoop m (splitSubs sentence) _).cur).length
            ≤ (subLoop m (splitSubs sentence) _).curLen := s3
          _ ≤ m + 1 := s4
          _ ≤ bnd := by omega
      · exact s5
    · by_cases hle1 : st.curLen + sentence.length + (if st.cur ≠ [] then 1 else 0) ≤ cs
      · have hstep : mainLoop cs m ov (sentence :: rest) st
            = mainLoop cs m ov rest ⟨st.chunks, st.cur ++ [sentence],
                st.curLen + sentence.length + (if st.cur ≠ [] then 1 else 0)⟩ := by
          rw [mainLoop, if_neg hbig, if_pos hle1]
        rw [hstep]
        have hjlen' : (joinSp (st.cur ++ [sentence])).length
            ≤ st.curLen + sentence.length + (if st.cur ≠ [] then 1 else 0) := by
          rw [joinSp_append_last]
          by_cases hc : st.cur = []
          · rw [if_pos hc, if_neg (by simp [hc]), hc]
            simp [joinSp]
          · rw [if_neg hc, if_pos hc]
            omega
        apply ih
        · exact hsents'
        · exact hchunks
        · intro x hx
          rcases List.mem_append.mp hx with hx | hx
          · exact hcur x hx
          · simp only [List.mem_singleton] at hx; subst hx; exact hs_ne
        · exact hjlen'
        · calc (joinSp (st.cur ++ [sentence])).length
              ≤ st.curLen + sentence.length + (if st.cur ≠ [] then 1 else 0) := hjlen'
            _ ≤ cs := hle1
            _ ≤ bnd := by omega
        · simp
      · by_cases hle2 : st.curLen + sentence.length + (if st.cur ≠ [] then 1 else 0) ≤ m
        · have hstep : mainLoop cs m ov (sentence :: rest) st
              = mainLoop cs m ov rest ⟨st.chunks, st.cur ++ [sentence],
                  st.curLen + sentence.length + (if st.cur ≠ [] then 1 else 0)⟩ := by
            rw [mainLoop, if_neg hbig, if_neg hle1, if_pos hle2]
          rw [hstep]
          have hjlen' : (joinSp (st.cur ++ [sentence])).length
              ≤ st.curLen + sentence.length + (if st.cur ≠ [] then 1 else 0) := by
            rw [joinSp_append_last]
            by_cases hc : st.cur = []
            · rw [if_pos hc, if_neg (by simp [hc]), hc]
              simp [joinSp]
            · rw [if_neg hc, if_pos hc]
              omega
          apply ih
          · exact hsents'
          · exact hchunks
          · intro x hx
            rcases List.mem_append.mp hx with hx | hx
            · exact hcur x hx
            · simp only [List.mem_singleton] at hx; subst hx; exact hs_ne
          · exact hjlen'
          · calc (joinSp (st.cur ++ [sentence])).length
                ≤ st.curLen + sentence.length + (if st.cur ≠ [] then 1 else 0) := hjlen'
              _ ≤ m := hle2
              _ ≤ bnd := by omega
          · simp
        · have hstep : mainLoop cs m ov (sentence :: rest) st
              = mainLoop cs m ov rest ⟨(if st.cur ≠ [] then st.chunks ++ [joinSp st.cur]
                  else st.chunks),
                  (if st.cur ≠ [] ∧ st.cur.length > 1 then takeOverlap st.cur ov
                    else ([], 0)).1 ++ [sentence],
                  (if st.cur ≠ [] ∧ st.cur.length > 1 then takeOverlap st.cur ov
                    else ([], 0)).2 + sentence.length +
                  (if st.cur ≠ [] ∧ st.cur.length > 1 then takeOverlap st.cur ov
                    else ([], 0)).1.length⟩ := by
            rw [mainLoop, if_neg hbig, if_neg hle1, if_neg hle2]
          rw [hstep]
          by_cases hg : st.cur ≠ [] ∧ st.cur.length > 1
          · obtain ⟨hov1, hov2, hov3⟩ := takeOverlap_spec st.cur ov
            rw [if_pos hg] at *
            apply ih
            · exact hsents'
            · exact hchunks1
            · intro x hx
              rcases List.mem_append.mp hx with hx | hx
              · exact hcur x (hov3 x hx)
              · simp only [List.mem_singleton] at hx; subst hx; exact hs_ne
            · dsimp only
              rw [joinSp_append_last]
              by_cases hovnil : (takeOverlap st.cur ov).1 = []
              · rw [if_pos hovnil]
                rw [hovnil] at hov1 ⊢
                simp only [sumLen, List.map_nil, List.sum_nil, List.length_nil] at hov1
                simp [joinSp]
              · rw [if_neg hovnil]
                have hjl := joinSp_length hovnil
                simp only [sumLen] at hjl hov1
                omega
            · dsimp only
              rw [joinSp_append_last]
              by_cases hovnil : (takeOverlap st.cur ov).1 = []
              · rw [if_pos hovnil]
                rw [hovnil]
                simp [joinSp]
                omega
              · rw [if_neg hovnil]
                have hjl := joinSp_length hovnil
                have hle := hov2 hovnil
                simp only [sumLen] at hjl hov1
                omega
            · simp
          · rw [if_neg hg] at *
            apply ih
            · exact hsents'
            · exact hchunks1
            · intro x hx
              rcases List.mem_append.mp hx with hx | hx
              · simp at hx
              · simp only [List.mem_singleton] at hx; subst hx; exact hs_ne
            · simp [joinSp]
            · simp only [joinSp]
              show sentence.length ≤ bnd
              omega
            · simp

end Chunker

/-! # C2: chunk-length bounds of the chunker -/

namespace Chunker

theorem pyIntTrunc_eq_floor (q : ℚ) (hq : 0 ≤ q) : pyIntTrunc q = (⌊q⌋).toNat := by
  have hnum : 0 ≤ q.num := Rat.num_nonneg.mpr hq
  rw [pyIntTrunc, Rat.floor_def]
  obtain ⟨a, ha⟩ := Int.eq_ofNat_of_zero_le hnum
  rw [ha]
  rfl

theorem maxChunkSize_le (cs : Nat) (r : ℚ) (hr : 0 ≤ r) :
    (maxChunkSize cs r : ℚ) ≤ (cs : ℚ) * r := by
  have hq : 0 ≤ (cs : ℚ) * r := mul_nonneg (by positivity) hr
  have hfl : 0 ≤ ⌊(cs : ℚ) * r⌋ := Int.floor_nonneg.mpr hq
  rw [maxChunkSize, pyIntTrunc_eq_floor _ hq]
  have h1 : ((⌊(cs : ℚ) * r⌋.toNat : ℚ)) = ((⌊(cs : ℚ) * r⌋ : ℤ) : ℚ) := by
    exact_mod_cast congrArg (fun z : ℤ => (z : ℚ)) (Int.toNat_of_nonneg hfl)
  rw [h1]
  exact Int.floor_le _

theorem lt_maxChunkSize_add_one (cs : Nat) (r : ℚ) (hr : 0 ≤ r) :
    (cs : ℚ) * r < (maxChunkSize cs r : ℚ) + 1 := by
  have hq : 0 ≤ (cs : ℚ) * r := mul_nonneg (by positivity) hr
  have hfl : 0 ≤ ⌊(cs : ℚ) * r⌋ := Int.floor_nonneg.mpr hq
  rw [maxChunkSize, pyIntTrunc_eq_floor _ hq]
  have h1 : ((⌊(cs : ℚ) * r⌋.toNat : ℚ)) = ((⌊(cs : ℚ) * r⌋ : ℤ) : ℚ) := by
    exact_mod_cast congrArg (fun z : ℤ => (z : ℚ)) (Int.toNat_of_nonneg hfl)
  rw [h1]
  exact Int.lt_floor_add_one _

theorem le_maxChunkSize (cs : Nat) (r : ℚ) (hr : 1 ≤ r) :
    cs ≤ maxChunkSize cs r := by
  have hr0 : (0 : ℚ) ≤ r := le_trans zero_le_one hr
  have hq : 0 ≤ (cs : ℚ) * r := mul_nonneg (by positivity) hr0
  rw [maxChunkSize, pyIntTrunc_eq_floor _ hq]
  have hle : ((cs : ℤ) : ℚ) ≤ (cs : ℚ) * r := by
    push_cast
    have hc0 : (0 : ℚ) ≤ (cs : ℚ) := Nat.cast_nonneg cs
    nlinarith
  have h2 : (cs : ℤ) ≤ ⌊(cs : ℚ) * r⌋ := Int.le_floor.mpr hle
  omega

theorem maxChunkSize_20_13_10 : maxChunkSize 20 (13 / 10) = 26 := by
  rw [maxChunkSize, show ((20 : Nat) : ℚ) * (13 / 10) = 26 by norm_num]
  rw [pyIntTrunc]
  norm_num
  rfl

theorem finish_good (bnd m : Nat) (E : List Char → Prop) (st : CState)
    (h1 : ∀ c ∈ st.chunks, c ≠ [] ∧ (c.length ≤ bnd ∨ (E c ∧ m < c.length)))
    (h2 : ∀ x ∈ st.cur, x ≠ [])
    (h4 : (joinSp st.cur).length ≤ bnd) :
    ∀ c ∈ finish st, c ≠ [] ∧ (c.length ≤ bnd ∨ (E c ∧ m < c.length)) := by
  intro c hc
  rw [finish] at hc
  by_cases hcur : st.cur = []
  · rw [if_neg (by simp [hcur])] at hc
    exact h1 c hc
  · rw [if_pos hcur] at hc
    rcases List.mem_append.mp hc with hc | hc
    · exact h1 c hc
    · simp only [List.mem_singleton] at hc
      subst hc
      exact ⟨joinSp_ne_nil hcur h2, Or.inl h4⟩

theorem chunk_text_good (text : List Char) (cs ov m : Nat) (hcs : 0 < cs) (hm : cs ≤ m) :
    ∀ c ∈ chunk_text text cs ov m,
      c ≠ [] ∧ (c.length ≤ m + ov + 1 ∨ (isOverlongSub text m c ∧ m < c.length)) := by
  intro c hc
  rw [chunk_text] at hc
  by_cases h0 : text = [] ∨ cs = 0
  · rw [if_pos h0] at hc; simp at hc
  · rw [if_neg h0] at hc
    by_cases hreg : regexSentences text ≠ []
    · rw [if_pos hreg] at hc
      have heff : effSentences text = regexSentences text := by
        rw [effSentences, if_pos hreg]
      have hsents : ∀ s ∈ regexSentences text,
          s ≠ [] ∧ ∀ x ∈ splitSubs s, m < s.length → m < x.length →
            isOverlongSub text m x := by
        intro s hs
        refine ⟨regexSentences_mem_ne_nil hs, fun x hx hslen hxlen => ?_⟩
        exact ⟨s, by rw [heff]; exact hs, hslen, hx, hxlen⟩
      obtain ⟨i1, i2, i3, i4, i5⟩ := mainLoop_inv cs m ov (m + ov + 1)
        (isOverlongSub text m) rfl hm (regexSentences text) ⟨[], [], 0⟩ hsents
        (by intro x hx; simp at hx) (by intro x hx; simp at hx)
        (by simp [joinSp]) (by simp [joinSp]) (fun _ => rfl)
      exact finish_good (m + ov + 1) m (isOverlongSub text m) _ i1 i2 i4 c hc
    · rw [if_neg hreg] at hc
      by_cases hpara1 : (splitParas text []).length = 1
      · rw [if_pos hpara1] at hc
        by_cases hov : ov < cs
        · rw [if_pos hov] at hc
          obtain ⟨hne, hlen⟩ := windowChunks_spec cs ov hcs _ text 0 c hc
          exact ⟨hne, Or.inl (by omega)⟩
        · rw [if_neg hov] at hc
          simp at hc
      · rw [if_neg hpara1] at hc
        by_cases hps : paraSentences text = []
        · rw [if_pos hps] at hc
          simp at hc
        · rw [if_neg hps] at hc
          have heff : effSentences text = paraSentences text := by
            rw [effSentences, if_neg hreg, if_neg hpara1]
          have hsents : ∀ s ∈ paraSentences text,
              s ≠ [] ∧ ∀ x ∈ splitSubs s, m < s.length → m < x.length →
                isOverlongSub text m x := by
            intro s hs
            refine ⟨paraSentences_mem_ne_nil hs, fun x hx hslen hxlen => ?_⟩
            exact ⟨s, by rw [heff]; exact hs, hslen, hx, hxlen⟩
          obtain ⟨i1, i2, i3, i4, i5⟩ := mainLoop_inv cs m ov (m + ov + 1)
            (isOverlongSub text m) rfl hm (paraSentences text) ⟨[], [], 0⟩ hsents
            (by intro x hx; simp at hx) (by intro x hx; simp at hx)
            (by simp [joinSp]) (by simp [joinSp]) (fun _ => rfl)
          exact finish_good (m + ov + 1) m (isOverlongSub text m) _ i1 i2 i4 c hc

/-- Counterexample to claim C2 as stated: with `chunk_size = 20`,
`overlap = 100`, `max_expand_ratio = 13/10` (so `max_chunk_size
= int(20 * 1.3) = 26`), the text `"aaaaaaaaa。bbbbbbbbb。ccccccccc。ddddddddd。"`
(four sentences of 10 characters) yields the chunk
`"aaaaaaaaa。 bbbbbbbbb。 ccccccccc。"` of length 32 > 26 = s*r, although no
sub-sentence of the text is over-long: the overlap re-seeding
(`current_chunk = overlap_sentences + [sentence]`) lets a chunk grow past
the ceiling by up to `overlap + 1` characters. -/
theorem C2_counterexample :
    ¬ (∀ c ∈ chunkTextR "aaaaaaaaa。bbbbbbbbb。ccccccccc。ddddddddd。".data 20 100 (13 / 10),
        ((c.length : ℚ) ≤ (20 : ℚ) * (13 / 10) ∨
          (isOverlongSub "aaaaaaaaa。bbbbbbbbb。ccccccccc。ddddddddd。".data
            (maxChunkSize 20 (13 / 10)) c ∧ (20 : ℚ) * (13 / 10) < (c.length : ℚ)))) := by
  intro hall
  rw [chunkTextR, maxChunkSize_20_13_10] at hall
  have hmem : "aaaaaaaaa。 bbbbbbbbb。 ccccccccc。".data
      ∈ chunk_text "aaaaaaaaa。bbbbbbbbb。ccccccccc。ddddddddd。".data 20 100 26 := by
    decide
  have h := hall _ hmem
  rw [show ("aaaaaaaaa。 bbbbbbbbb。 ccccccccc。".data).length = 32 from rfl] at h
  rcases h with h | ⟨hov, -⟩
  · norm_num at h
  · exact absurd hov (by decide)

/-- Claim C2 amended: for `chunk_size > 0` and `max_expand_ratio ≥ 1`, every
chunk returned by `_chunk_text` is non-empty and has length at most
`chunk_size * ratio + overlap + 1` — the overlap re-seeding can carry up to
`overlap + 1` characters past the `int(chunk_size * ratio)` ceiling — except
chunks that are a single comma-split sub-sentence of an over-long sentence
and themselves exceed `chunk_size * ratio`. -/
theorem C2_amended_chunk_bounds (text : List Char) (cs ov : Nat) (r : ℚ)
    (hcs : 0 < cs) (hr : 1 ≤ r) :
    ∀ c ∈ chunkTextR text cs ov r,
      c ≠ [] ∧
        ((c.length : ℚ) ≤ (cs : ℚ) * r + (ov : ℚ) + 1 ∨
          (isOverlongSub text (maxChunkSize cs r) c ∧ (cs : ℚ) * r < (c.length : ℚ))) := by
  intro c hc
  have hr0 : (0 : ℚ) ≤ r := le_trans zero_le_one hr
  have hm : cs ≤ maxChunkSize cs r := le_maxChunkSize cs r hr
  obtain ⟨hne, hlen⟩ := chunk_text_good text cs ov (maxChunkSize cs r) hcs hm c hc
  refine ⟨hne, ?_⟩
  rcases hlen with hlen | ⟨hsub, hgt⟩
  · left
    have h1 : (maxChunkSize cs r : ℚ) ≤ (cs : ℚ) * r := maxChunkSize_le cs r hr0
    have h2 : (c.length : ℚ) ≤ (maxChunkSize cs r : ℚ) + (ov : ℚ) + 1 := by
      exact_mod_cast hlen
    linarith
  · right
    refine ⟨hsub, ?_⟩
    have h1 : (cs : ℚ) * r < (maxChunkSize cs r : ℚ) + 1 := lt_maxChunkSize_add_one cs r hr0
    have h2 : (maxChunkSize cs r : ℚ) + 1 ≤ (c.length : ℚ) := by
      exact_mod_cast hgt
    linarith

/-- Witness for C2's amended theorem: `"ab。cd。"` with `chunk_size = 20`,
`overlap = 5`, `ratio = 13/10` chunks to the single chunk `"ab。 cd。"`
(length 7 ≤ 20 * 1.3 + 5 + 1). -/
theorem C2_amended_chunk_bounds_witness :
    0 < 20 ∧ (1 : ℚ) ≤ 13 / 10 ∧
      ("ab。 cd。".data ≠ [] ∧
        (((("ab。 cd。".data).length : ℚ)) ≤ ((20 : Nat) : ℚ) * (13 / 10) + ((5 : Nat) : ℚ) + 1 ∨
          (isOverlongSub "ab。cd。".data (maxChunkSize 20 (13 / 10)) "ab。 cd。".data ∧
            ((20 : Nat) : ℚ) * (13 / 10) < (("ab。 cd。".data).length : ℚ)))) := by
  refine ⟨by decide, by norm_num, ?_⟩
  have hmem : "ab。 cd。".data ∈ chunkTextR "ab。cd。".data 20 5 (13 / 10) := by
    rw [chunkTextR, maxChunkSize_20_13_10]
    decide
  exact C2_amended_chunk_bounds "ab。cd。".data 20 5 (13 / 10) (by decide) (by norm_num) _ hmem

end Chunker
